import Mathlib

/-!
JsonParser (`json.h`): a shallow embedding and its verified properties.

The single-header C library `json.h` is embedded as pure Lean functions.

Modelling conventions

* `size_t` values are natural numbers; every `size_t` addition, subtraction and
  multiplication of the container code is taken modulo `2 ^ 64` (`size_add`, `size_sub`,
  `size_mul`).
* A C buffer (`elems`, `field_names`, `field_values`, string `data`) is the list of the slots
  that have been written so far; the separate `len` field says how many of them are live, as in
  the C structs. A slot that was never written reads as zeroed memory.
* Pointer parameters are always valid (the `!ptr` guards are not represented) and `realloc`
  always succeeds.
* `Json_Boolean` is `int` in the source and `Int` here; `Json_Number` is `double` in the source
  and is modelled by its value class (`Json_Number`).
* The conversions between text and numbers that the source leaves to the C library
  (`printf("%.16g")`, `sscanf("%lf%n")`, the directive `%4hx`) are the fields of a parameter
  `Libc`; `intLibc` is an instance for evaluating the model on integers.
* Releasing memory (`free`) has no counterpart; the zeroing done by `Json_destroyValue` has.
-/

namespace JsonParser

/-! ## Machine arithmetic -/

/-- Number of values of the type `size_t` (LP64). -/
def SIZE_MOD : Nat := 18446744073709551616

/-- Addition of `size_t` values. -/
def size_add (a b : Nat) : Nat := (a + b) % SIZE_MOD

/-- Subtraction of `size_t` values: wraps around below zero. -/
def size_sub (a b : Nat) : Nat := (a + (SIZE_MOD - b % SIZE_MOD)) % SIZE_MOD

/-- Multiplication of `size_t` values. -/
def size_mul (a b : Nat) : Nat := (a * b) % SIZE_MOD

/-! ## Data model -/

/-- The type `Json_Boolean` is `int`. -/
abbrev Json_Boolean := Int

/-- The constant `JSON_TRUE`. -/
def JSON_TRUE : Json_Boolean := 1

/-- The constant `JSON_FALSE`. -/
def JSON_FALSE : Json_Boolean := 0

/-- The type `Json_Number` is `double`. A double is finite (a rational number; the two zeros
are not told apart), an infinity or a NaN, the last two with their sign bit. -/
inductive Json_Number where
  | fin (q : ℚ)
  | inf (neg : Bool)
  | nan (neg : Bool)
  deriving DecidableEq

/-- The struct `Json_String`. `data = none` is the NULL pointer; otherwise `data` lists the
bytes stored from the pointer on (each byte a number below 256), of which the first `len`
make up the string. -/
structure Json_String where
  is_heap : Bool
  len : Nat
  data : Option (List Nat)
  deriving DecidableEq

/-- The macro `JSON_STRLIT(s)`: a borrowed string over a C string literal, whose storage ends
with the terminating NUL byte. -/
def JSON_STRLIT (s : List Nat) : Json_String := ⟨false, s.length, some (s ++ [0])⟩

/-- An all-zero `Json_String` (what `memset` or a never-written slot holds). -/
def Json_String.zero : Json_String := ⟨false, 0, none⟩

/-- The struct `Json_Value`: the tag `type` together with the member of the union `v` it
selects. `Json_Array` is `len`, `cap`, `elems`; `Json_Object` is `len`, `cap`, `field_names`,
`field_values`. -/
inductive Json_Value where
  | null
  | boolean (as_boolean : Json_Boolean)
  | number (as_number : Json_Number)
  | string (as_string : Json_String)
  | array (len cap : Nat) (elems : List Json_Value)
  | object (len cap : Nat) (field_names : List Json_String) (field_values : List Json_Value)

/-! ## Buffers -/

/-- The assignment `buf[i] = v`. Slots between the written part and `i` read as `pad`. -/
def bufSet {α : Type} (buf : List α) (i : Nat) (v : α) (pad : α) : List α :=
  (buf ++ List.replicate (i - buf.length) pad).take i ++ v :: buf.drop (i + 1)

/-- The call `memmove(&buf[dst], &buf[src], n * sizeof *buf)` on the written part of a buffer:
slot `dst + k` receives the old content of slot `src + k` for every `k < n`. (A count that
leaves the buffer is undefined in C; here the slots that exist are moved.) -/
def memmove {α : Type} (buf : List α) (dst src n : Nat) : List α :=
  buf.take dst ++ (buf.drop src).take n ++ buf.drop (dst + n)

/-- The call `memcmp(a, b, n)`: the difference of the first pair of differing bytes among the
first `n`, zero when there is none. (C fixes only the sign of the result.) -/
def memcmp : List Nat → List Nat → Nat → Int
  | _, _, 0 => 0
  | a, b, n + 1 =>
    if a.headD 0 = b.headD 0 then memcmp a.tail b.tail n
    else (a.headD 0 : Int) - (b.headD 0 : Int)

/-! ## Strings -/

/-- The function `Json_stringCmp`. -/
def Json_stringCmp (a b : Json_String) : Int :=
  match a.data, b.data with
  | none, none => 0
  | none, some _ => -1
  | some _, none => 1
  | some da, some db =>
    let cmp := memcmp da db (if a.len < b.len then a.len else b.len)
    if cmp = 0 then
      (if a.len < b.len then -1 else if a.len > b.len then 1 else 0)
    else cmp

/-! ## Arrays -/

/-- The function `Json_arrayAppend`. -/
def Json_arrayAppend (_array : Json_Value) (src : Json_Value) : Json_Value :=
  match _array with
  | .array len cap elems =>
    let cap1 := if size_add len 1 > cap then (if cap < 128 then 128 else size_mul 2 cap) else cap
    .array (size_add len 1) cap1 (bufSet elems len src .null)
  | v => v

/-- The function `Json_arrayDelete`. -/
def Json_arrayDelete (_array : Json_Value) (idx : Nat) : Json_Value :=
  match _array with
  | .array len cap elems =>
    if idx > len then .array len cap elems
    else .array (size_sub len 1) cap (memmove elems idx (idx + 1) (size_sub (size_sub len idx) 1))
  | v => v

/-! ## Objects -/

/-- The scan `for (i = ...; i < len; ++i) { if (Json_stringCmp(field_names[i], field)) continue;
break; }` shared by `Json_objectSet`, `Json_objectGet` and `Json_objectDelete`: `n` is the number
of iterations left, `i` the current index; the result is the index at which the loop stops
(`len` when no name compares equal). -/
def scanField (field_names : List Json_String) (field : Json_String) : Nat → Nat → Nat
  | 0, i => i
  | n + 1, i =>
    if Json_stringCmp (field_names.getD i Json_String.zero) field ≠ 0 then
      scanField field_names field n (i + 1)
    else i

/-- The function `Json_objectSet`. -/
def Json_objectSet (_object : Json_Value) (field : Json_String) (src : Json_Value) : Json_Value :=
  match _object with
  | .object len cap field_names field_values =>
    if field.data.isNone then .object len cap field_names field_values
    else
      let cap1 := if size_add len 1 > cap then (if cap < 128 then 128 else size_mul 2 cap) else cap
      let i := scanField field_names field len 0
      if i < len then
        .object len cap1 field_names (bufSet field_values i src .null)
      else
        .object (size_add len 1) cap1 (bufSet field_names len field Json_String.zero)
          (bufSet field_values len src .null)
  | v => v

/-- The function `Json_objectGet`: `none` is the NULL pointer, `some v` a pointer to a slot of
`field_values` holding `v`. -/
def Json_objectGet (_object : Json_Value) (field : Json_String) : Option Json_Value :=
  match _object with
  | .object len _ field_names field_values =>
    if field.data.isNone then none
    else
      let i := scanField field_names field len 0
      if i < len then some (field_values.getD i .null) else none
  | _ => none

/-- The function `Json_objectDelete`. -/
def Json_objectDelete (_object : Json_Value) (field : Json_String) : Json_Value :=
  match _object with
  | .object len cap field_names field_values =>
    if field.data.isNone then .object len cap field_names field_values
    else
      let i := scanField field_names field len 0
      if i ≥ len then .object len cap field_names field_values
      else
        -- Json_destroyValue zeroes the slot of the value
        let values1 := bufSet field_values i .null .null
        let n := size_sub (size_sub len i) 1
        if i < size_sub len 1 then
          .object (size_sub len 1) cap (memmove field_names i (i + 1) n)
            (memmove values1 i (i + 1) n)
        else .object (size_sub len 1) cap field_names values1
  | v => v

/-! ## The C library -/

/-- Bytes of an ASCII string literal. -/
def ascii (s : String) : List Nat := s.toList.map Char.toNat

/-- The conversions between text and `double` that the library leaves to libc. -/
structure Libc where
  /-- The text that `printf("%.16g", x)` writes. -/
  fmt_g16 : Json_Number → List Nat
  /-- The call `sscanf(s, "%lf%n", &x, &n)` on the text `s`: `some (x, n)` when the call
  returns 1, having converted the first `n` bytes to `x`. -/
  scan_lf : List Nat → Option (Json_Number × Nat)
  /-- The directives `%4hx%n` of `sscanf` on the text `s`: `some (v, k)` when the conversion
  succeeds, having consumed the first `k` bytes and stored `v`. -/
  scan_hx4 : List Nat → Option (Nat × Nat)

/-- The conversion `(int)x` of a `double`: truncation toward zero. Outside the range of `int`
(and for infinities and NaN) C leaves the result undefined; the value taken here is the one
x86-64 produces, `INT_MIN`. -/
def c_int_of_double : Json_Number → Int
  | .fin q =>
    let t := Int.tdiv q.num q.den
    if -2147483648 ≤ t ∧ t ≤ 2147483647 then t else -2147483648
  | _ => -2147483648

/-- The conversion `(Json_Number)b` of an `int`. -/
def c_double_of_int (b : Int) : Json_Number := .fin b

/-! ## Typed getters -/

/-- The function `Json_objectGetBool`. -/
def Json_objectGetBool (object : Json_Value) (field : Json_String) (fallback : Json_Boolean) :
    Json_Boolean :=
  match Json_objectGet object field with
  | none => fallback
  | some .null => JSON_FALSE
  | some (.number x) =>
    if c_int_of_double x > 2 then fallback
    else (if c_int_of_double x ≠ 0 then 1 else 0)
  | some (.string s) =>
    if Json_stringCmp (JSON_STRLIT (ascii "true")) s = 0 then JSON_TRUE
    else if Json_stringCmp (JSON_STRLIT (ascii "false")) s = 0 then JSON_FALSE
    else fallback
  | some (.array len _ elems) =>
    if len ≠ 1 then fallback
    else match elems.getD 0 .null with
      | .boolean b => b
      | _ => fallback
  | some (.object _ _ _ _) => fallback
  | some (.boolean b) => b

/-- The function `Json_objectGetNum`. -/
def Json_objectGetNum (object : Json_Value) (field : Json_String) (fallback : Json_Number) :
    Json_Number :=
  match Json_objectGet object field with
  | none => fallback
  | some .null => .fin 0
  | some (.boolean b) => c_double_of_int b
  | some (.string s) =>
    if Json_stringCmp (JSON_STRLIT (ascii "Infinity")) s = 0 then .inf false
    else if Json_stringCmp (JSON_STRLIT (ascii "-Infinity")) s = 0 then .inf true
    else if Json_stringCmp (JSON_STRLIT (ascii "NaN")) s = 0 then .nan false
    else if Json_stringCmp (JSON_STRLIT (ascii "-NaN")) s = 0 then .nan true
    else fallback
  | some (.array len _ elems) =>
    if len ≠ 1 then fallback
    else match elems.getD 0 .null with
      | .number x => x
      | _ => fallback
  | some (.object _ _ _ _) => fallback
  | some (.number x) => x

/-- The function `Json_objectGetStr`. In the Number case `snprintf(NULL, 0, ...)` gives the
length of the rendering, `calloc(1, len)` a zeroed buffer of that many bytes, and
`snprintf(data, len, ...)` stores at most `len - 1` bytes of the rendering and a NUL. -/
def Json_objectGetStr (L : Libc) (object : Json_Value) (field : Json_String)
    (fallback : Json_String) : Json_String :=
  match Json_objectGet object field with
  | none => fallback
  | some .null => JSON_STRLIT (ascii "")
  | some (.boolean b) => if b ≠ 0 then JSON_STRLIT (ascii "true") else JSON_STRLIT (ascii "false")
  | some (.number x) =>
    let text := L.fmt_g16 x
    let len := text.length
    ⟨true, len, some (if len = 0 then [] else text.take (len - 1) ++ [0])⟩
  | some (.array len _ elems) =>
    if len ≠ 1 then fallback
    else match elems.getD 0 .null with
      | .string s => s
      | _ => fallback
  | some (.object _ _ _ _) => fallback
  | some (.string s) => s

/-! ## Character classes and text helpers -/

/-- The function `isspace` of the "C" locale. -/
def isspace (c : Nat) : Bool := decide (c = 32 ∨ (9 ≤ c ∧ c ≤ 13))

/-- The function `isdigit`. -/
def isdigit (c : Nat) : Bool := decide (48 ≤ c ∧ c ≤ 57)

/-- The function `isprint` of the "C" locale. -/
def isprint (c : Nat) : Bool := decide (32 ≤ c ∧ c ≤ 126)

/-- One lowercase hexadecimal digit. -/
def hexDigit (d : Nat) : Nat := if d < 10 then 48 + d else 87 + d

/-- Hexadecimal digits of `n`, most significant first, in front of `acc`. -/
def hexDigitsAux : Nat → Nat → List Nat → List Nat
  | 0, _, acc => acc
  | fuel + 1, n, acc =>
    if n < 16 then hexDigit n :: acc
    else hexDigitsAux fuel (n / 16) (hexDigit (n % 16) :: acc)

/-- The text of `printf("%.4lx", n)` (and of `"%.4x"`): lowercase hexadecimal, at least four
digits. An `unsigned long` has at most 16 hexadecimal digits. -/
def fmt_04x (n : Nat) : List Nat :=
  let ds := hexDigitsAux 16 n []
  List.replicate (4 - ds.length) 48 ++ ds

/-- The loop `for (int i = 0; i < ntabs; ++i) putc('\t', file)`. -/
def tabs (ntabs : Nat) : List Nat := List.replicate ntabs 9

/-- The bytes of a C string: those before the first NUL. -/
def cstr (s : List Nat) : List Nat := s.takeWhile (fun c => c ≠ 0)

/-! ## Printer -/

/-- The macro `isinf`. -/
def isinf : Json_Number → Bool
  | .inf _ => true
  | _ => false

/-- The macro `isnan`. -/
def isnan : Json_Number → Bool
  | .nan _ => true
  | _ => false

/-- The macro `signbit`. -/
def signbit : Json_Number → Bool
  | .fin q => decide (q < 0)
  | .inf neg => neg
  | .nan neg => neg

/-- The loop over the bytes of a String in the `JSON_TYPE_STRING` case of
`Json__realPrintValue`, from index `i` on. Every iteration advances `i` by at least one, so
`len` iterations (the first argument, when the loop is entered) are never exceeded. A read
past the stored bytes yields 0. -/
def printStringLoop (data : List Nat) (len : Nat) : Nat → Nat → List Nat
  | 0, _ => []
  | fuel + 1, i =>
    if i < len then
      let codepoint := data.getD i 0 &&& 0xff
      if codepoint ≤ 0x7f then
        (if codepoint = 0x22 then [0x5c, 0x22]       -- \"
         else if codepoint = 0x5c then [0x5c, 0x5c]  -- \\
         else if codepoint = 0x2f then [0x5c, 0x2f]  -- \/
         else if codepoint = 8 then [0x5c, 0x62]     -- \b
         else if codepoint = 12 then [0x5c, 0x66]    -- \f
         else if codepoint = 10 then [0x5c, 0x6e]    -- \n
         else if codepoint = 13 then [0x5c, 0x72]    -- \r
         else if codepoint = 9 then [0x5c, 0x74]     -- \t
         else if ¬ isprint codepoint then [0x5c, 0x75] ++ fmt_04x codepoint
         else [codepoint])
        ++ printStringLoop data len fuel (i + 1)
      else if codepoint >>> 5 = 6 then
        let cp0 := codepoint &&& 0x1f
        let cp1 := (cp0 <<< 6) ||| (data.getD (i + 1) 0 &&& 0x3f)
        [0x5c, 0x75] ++ fmt_04x cp1 ++ printStringLoop data len fuel (i + 2)
      else if codepoint >>> 4 = 0xc then
        let cp0 := codepoint &&& 0xf
        let cp1 := (cp0 <<< 6) ||| (data.getD (i + 1) 0 &&& 0x3f)
        let cp2 := (cp1 <<< 6) ||| (data.getD (i + 2) 0 &&& 0x3f)
        [0x5c, 0x75] ++ fmt_04x cp2 ++ printStringLoop data len fuel (i + 3)
      else if codepoint >>> 3 = 0x1e then
        let cp0 := codepoint &&& 7
        let cp1 := (cp0 <<< 6) ||| (data.getD (i + 1) 0 &&& 0x3f)
        let cp2 := (cp1 <<< 6) ||| (data.getD (i + 2) 0 &&& 0x3f)
        let cp3 := (cp2 <<< 6) ||| (data.getD (i + 3) 0 &&& 0x3f)
        if cp3 > 0x10FFFF then
          [0x5c, 0x75, 0x66, 0x66, 0x66, 0x64] ++ printStringLoop data len fuel (i + 4)
        else
          -- codepoint -= 0x10000 on an unsigned long; hi and lo are unsigned short
          let cp4 := (cp3 + (SIZE_MOD - 0x10000)) % SIZE_MOD
          let hi := (0xd800 + (cp4 >>> 10)) % 65536
          let lo := (0xdc00 + (cp4 &&& 0x3ff)) % 65536
          [0x5c, 0x75] ++ fmt_04x hi ++ [0x5c, 0x75] ++ fmt_04x lo
            ++ printStringLoop data len fuel (i + 4)
      else
        [0x5c, 0x75, 0x66, 0x66, 0x66, 0x64] ++ printStringLoop data len fuel (i + 1)
    else []

/-- The `JSON_TYPE_STRING` case of `Json__realPrintValue`: a quote, the escaped bytes, a
quote. -/
def printString (s : Json_String) : List Nat :=
  [0x22] ++ printStringLoop (s.data.getD []) s.len s.len 0 ++ [0x22]

/-- What the Array loop of `Json__realPrintValue` prints for `n` slots from index `i` on that
were never written (they read as zeroed memory, a Null). -/
def printNullElems (ntabs : Nat) : Nat → Nat → List Nat
  | 0, _ => []
  | n + 1, i =>
    (if i ≠ 0 then [0x2c] else []) ++ [10] ++ tabs ntabs ++ ascii "null"
      ++ printNullElems ntabs n (i + 1)

/-- What the Object loop of `Json__realPrintValue` prints for `n` slots from index `i` on whose
value was never written. -/
def printNullFields (field_names : List Json_String) (ntabs : Nat) : Nat → Nat → List Nat
  | 0, _ => []
  | n + 1, i =>
    (if i ≠ 0 then [0x2c] else []) ++ [10] ++ tabs ntabs
      ++ printString (field_names.getD i Json_String.zero) ++ [0x3a, 0x20] ++ ascii "null"
      ++ printNullFields field_names ntabs n (i + 1)

mutual
/-- The function `Json__realPrintValue`; the result is the text written to `file`. -/
def Json__realPrintValue (L : Libc) : Json_Value → Nat → Bool → List Nat
  | .null, ntabs, omit_start_tabs =>
    (if omit_start_tabs then [] else tabs ntabs) ++ ascii "null"
  | .boolean b, ntabs, omit_start_tabs =>
    (if omit_start_tabs then [] else tabs ntabs) ++ (if b ≠ 0 then ascii "true" else ascii "false")
  | .number x, ntabs, omit_start_tabs =>
    (if omit_start_tabs then [] else tabs ntabs) ++
      (let str : Option (List Nat) :=
          if isinf x then some (ascii "-Infinity")
          else if isnan x then some (ascii "-NaN") else none
       match str with
       | some t =>
         let t1 := if ¬ signbit x then t.tail else t
         printString ⟨false, t1.length, some (t1 ++ [0])⟩
       | none => L.fmt_g16 x)
  | .string s, ntabs, omit_start_tabs =>
    (if omit_start_tabs then [] else tabs ntabs) ++ printString s
  | .array len _ elems, ntabs, omit_start_tabs =>
    (if omit_start_tabs then [] else tabs ntabs) ++ [0x5b]
      ++ printElems L elems len 0 (ntabs + 1) ++ [10] ++ tabs ntabs ++ [0x5d]
  | .object len _ field_names field_values, ntabs, omit_start_tabs =>
    (if omit_start_tabs then [] else tabs ntabs) ++ [0x7b]
      ++ printFields L field_names field_values len 0 (ntabs + 1) ++ [10] ++ tabs ntabs ++ [0x7d]
/-- The loop of the `JSON_TYPE_ARRAY` case from index `i` on; the list holds the slots from
`i` on. -/
def printElems (L : Libc) : List Json_Value → Nat → Nat → Nat → List Nat
  | [], len, i, ntabs => printNullElems ntabs (len - i) i
  | v :: rest, len, i, ntabs =>
    if i < len then
      (if i ≠ 0 then [0x2c] else []) ++ [10] ++ Json__realPrintValue L v ntabs false
        ++ printElems L rest len (i + 1) ntabs
    else []
/-- The loop of the `JSON_TYPE_OBJECT` case from index `i` on; the list holds the value slots
from `i` on. -/
def printFields (L : Libc) (field_names : List Json_String) :
    List Json_Value → Nat → Nat → Nat → List Nat
  | [], len, i, ntabs => printNullFields field_names ntabs (len - i) i
  | v :: rest, len, i, ntabs =>
    if i < len then
      (if i ≠ 0 then [0x2c] else []) ++ [10] ++ tabs ntabs
        ++ printString (field_names.getD i Json_String.zero) ++ [0x3a, 0x20]
        ++ Json__realPrintValue L v ntabs true
        ++ printFields L field_names rest len (i + 1) ntabs
    else []
end

/-- The function `Json_printValue`. -/
def Json_printValue (L : Libc) (value : Json_Value) : List Nat :=
  Json__realPrintValue L value 0 true ++ [10]

/-! ## Parser

The text buffer is the list of the bytes stored from the pointer on; a read past them yields 0
(the buffer of `Json_parseFile` is zero-filled and C strings end in NUL), and `&buffer[k]` is
`buffer.drop k`. Positions in the text are far below `SIZE_MAX`, so additions on them are
plain; the subtraction `buf_sz - ret` wraps. The writes of the parser to `stdout` (its
`printf` calls) are not part of the model, nor is the capacity `nalloced` of the string under
construction. An uninitialised local `Json_Value` reads as zeroed memory. -/

/-- The loop `while (isspace(buffer[ret])) { ++ret; if (ret >= buf_sz) return 0; }`; `none`
is the `return 0`. At most `buf_sz` iterations (the first argument) take place. -/
def skipLeadingSpace (buffer : List Nat) (buf_sz : Nat) : Nat → Nat → Option Nat
  | 0, ret => some ret
  | n + 1, ret =>
    if isspace (buffer.getD ret 0) then
      (if ret + 1 ≥ buf_sz then none else skipLeadingSpace buffer buf_sz n (ret + 1))
    else some ret

/-- The loop `while (isspace(buffer[ret]) && ret < buf_sz) ++ret;` with `n` iterations
left before `ret` reaches `buf_sz`. -/
def skipSpaceLoop (buffer : List Nat) : Nat → Nat → Nat
  | 0, ret => ret
  | n + 1, ret =>
    if isspace (buffer.getD ret 0) then skipSpaceLoop buffer n (ret + 1) else ret

/-- The loop `while (isspace(buffer[ret]) && ret < buf_sz) ++ret;`. -/
def skipSpace (buffer : List Nat) (buf_sz ret : Nat) : Nat :=
  skipSpaceLoop buffer (buf_sz - ret) ret

/-- The call `sscanf(s, "u%4hx%n", &hi, &n)`: `some (hi, n)` when it returns 1. -/
def sscanf_u_hx (L : Libc) (s : List Nat) : Option (Nat × Nat) :=
  match s with
  | 0x75 :: rest =>
    match L.scan_hx4 rest with
    | some (v, k) => some (v % 65536, k + 1)
    | none => none
  | _ => none

/-- The call `sscanf(s, "\\u%4hx%n", &lo, &m)`: `some (lo, m)` when it returns 1. -/
def sscanf_bs_u_hx (L : Libc) (s : List Nat) : Option (Nat × Nat) :=
  match s with
  | 0x5c :: 0x75 :: rest =>
    match L.scan_hx4 rest with
    | some (v, k) => some (v % 65536, k + 2)
    | none => none
  | _ => none

/-- The `case 'u'` of the escape switch, entered with `buffer[i] == 'u'`: the bytes stored
in the string and the value of `i` at the `continue`. -/
def parseEscapeU (L : Libc) (buffer : List Nat) (i : Nat) : List Nat × Nat :=
  match sscanf_u_hx L (cstr (buffer.drop i)) with
  | none => ([0xef, 0xbf, 0xbd], i)
  | some (hi, n) =>
    if 0xd800 ≤ hi ∧ hi ≤ 0xdbff then
      match sscanf_bs_u_hx L (cstr (buffer.drop (i + n))) with
      | none => ([0xef, 0xbf, 0xbd], i + n)
      | some (lo, m) =>
        if lo < 0xdc00 ∨ lo > 0xdfff then ([0xef, 0xbf, 0xbd], i + n + m)
        else
          let codepoint := 0x10000 + (((hi - 0xd800) <<< 10) ||| (lo - 0xdc00))
          ([0xf0 ||| ((codepoint >>> 18) &&& 7), 0x80 ||| ((codepoint >>> 12) &&& 0x3f),
            0x80 ||| ((codepoint >>> 6) &&& 0x3f), 0x80 ||| (codepoint &&& 0x3f)],
           i + n + m - 1)
    else if hi ≤ 0x7F then ([hi], i + n)
    else if hi ≤ 0x7FF then
      ([0xc0 ||| ((hi >>> 6) &&& 0x1f), 0x80 ||| (hi &&& 0x3f)], i + n)
    else
      ([0xe0 ||| ((hi >>> 12) &&& 0xf), 0x80 ||| ((hi >>> 6) &&& 0x3f), 0x80 ||| (hi &&& 0x3f)],
       i + n)

/-- The tail of the string loop body, which copies the character at `buffer[i]` (one to four
bytes by its lead byte): the bytes stored and the value of `i` at the `continue`. -/
def copyRaw (buffer : List Nat) (i : Nat) : List Nat × Nat :=
  let b := buffer.getD i 0
  if b ≤ 0x7f then ([b], i)
  else if b >>> 5 = 6 then ([b, buffer.getD (i + 1) 0], i + 1)
  else if b >>> 4 = 0xe then ([b, buffer.getD (i + 1) 0, buffer.getD (i + 2) 0], i + 2)
  else ([b, buffer.getD (i + 1) 0, buffer.getD (i + 2) 0, buffer.getD (i + 3) 0], i + 3)

/-- The loop `for (i = ret + 1; i < buf_sz; ++i)` of the `case '"'`: from the index `i` and
the bytes stored so far (`none` while `data` is still NULL) to the final index and bytes.
Every iteration advances `i` by at least one, so `buf_sz` iterations (the first argument, when
the loop is entered) are never exceeded. -/
def parseStringLoop (L : Libc) (buffer : List Nat) (buf_sz : Nat) :
    Nat → Nat → Option (List Nat) → Nat × Option (List Nat)
  | 0, i, data => (i, data)
  | fuel + 1, i, data =>
    if i < buf_sz then
      if buffer.getD i 0 = 0x22 then (i, data)
      else
        -- realloc: from here on data is not NULL
        let d := data.getD []
        if buffer.getD i 0 = 0x5c then
          let c := buffer.getD (i + 1) 0
          if c = 0x22 then parseStringLoop L buffer buf_sz fuel (i + 2) (some (d ++ [0x22]))
          else if c = 0x5c then parseStringLoop L buffer buf_sz fuel (i + 2) (some (d ++ [0x5c]))
          else if c = 0x2f then parseStringLoop L buffer buf_sz fuel (i + 2) (some (d ++ [0x2f]))
          else if c = 0x62 then parseStringLoop L buffer buf_sz fuel (i + 2) (some (d ++ [8]))
          else if c = 0x66 then parseStringLoop L buffer buf_sz fuel (i + 2) (some (d ++ [12]))
          else if c = 0x6e then parseStringLoop L buffer buf_sz fuel (i + 2) (some (d ++ [10]))
          else if c = 0x72 then parseStringLoop L buffer buf_sz fuel (i + 2) (some (d ++ [13]))
          else if c = 0x74 then parseStringLoop L buffer buf_sz fuel (i + 2) (some (d ++ [9]))
          else if c = 0x75 then
            parseStringLoop L buffer buf_sz fuel ((parseEscapeU L buffer (i + 1)).2 + 1)
              (some (d ++ (parseEscapeU L buffer (i + 1)).1))
          else
            parseStringLoop L buffer buf_sz fuel ((copyRaw buffer (i + 1)).2 + 1)
              (some (d ++ (copyRaw buffer (i + 1)).1))
        else
          parseStringLoop L buffer buf_sz fuel ((copyRaw buffer i).2 + 1)
            (some (d ++ (copyRaw buffer i).1))
    else (i, data)

/-- The `do { ... } while (buffer[ret++] == ',');` loop of the `case '['`, with `parse` the
recursive call of `Json_parseStr`; the result is `ret` after the loop and the Array. `none`
when the fuel (first argument) runs out. -/
def parseArrayLoop (parse : Nat → List Nat → Json_Value → Option (Nat × Json_Value))
    (buffer : List Nat) (buf_sz : Nat) : Nat → Nat → Json_Value → Option (Nat × Json_Value)
  | 0, _, _ => none
  | fuel + 1, ret, out =>
    let ret1 := skipSpace buffer buf_sz ret
    match parse (size_sub buf_sz ret1) (buffer.drop ret1) .null with
    | none => none
    | some (r, elem) =>
      let out1 := Json_arrayAppend out elem
      if buffer.getD (ret1 + r) 0 = 0x2c then
        parseArrayLoop parse buffer buf_sz fuel (ret1 + r + 1) out1
      else some (ret1 + r + 1, out1)

/-- The `do { ... } while (buffer[ret++] == ',');` loop of the `case '{'`, with `parse` the
recursive call of `Json_parseStr`; the result is `ret` after the loop and the Object. `none`
when the fuel (first argument) runs out. -/
def parseObjectLoop (parse : Nat → List Nat → Json_Value → Option (Nat × Json_Value))
    (buffer : List Nat) (buf_sz : Nat) : Nat → Nat → Json_Value → Option (Nat × Json_Value)
  | 0, _, _ => none
  | fuel + 1, ret, out =>
    let ret1 := skipSpace buffer buf_sz ret
    match parse (size_sub buf_sz ret1) (buffer.drop ret1) .null with
    | none => none
    | some (r, .string name) =>
      let ret2 := skipSpace buffer buf_sz (ret1 + r)
      if buffer.getD ret2 0 ≠ 0x3a then some (ret2 + 1, out)
      else
        let ret3 := skipSpace buffer buf_sz (ret2 + 1)
        match parse (size_sub buf_sz ret3) (buffer.drop ret3) .null with
        | none => none
        | some (r2, val) =>
          let out1 := Json_objectSet out name val
          if buffer.getD (ret3 + r2) 0 = 0x2c then
            parseObjectLoop parse buffer buf_sz fuel (ret3 + r2 + 1) out1
          else some (ret3 + r2 + 1, out1)
    | some (r, _) => some (ret1 + r, out)

/-- The function `Json_parseStr`: from the fuel, `buf_sz`, `buffer` and the content of `*out`
before the call to the returned count and the content of `*out` after the call. `none` when
the fuel, which bounds the nesting depth and the number of elements of each Array and Object,
runs out. -/
def Json_parseStr (L : Libc) :
    Nat → Nat → List Nat → Json_Value → Option (Nat × Json_Value)
  | 0, _, _, _ => none
  | fuel + 1, buf_sz, buffer, out =>
    if buf_sz = 0 then some (0, out)
    else
      -- memset(out, 0, sizeof(*out)): a Null
      match skipLeadingSpace buffer buf_sz buf_sz 0 with
      | none => some (0, .null)
      | some ret =>
        let c := buffer.getD ret 0
        if isdigit c then
          match L.scan_lf (cstr (buffer.drop ret)) with
          | none => some (ret, .number (.fin 0))
          | some (x, tmp) => some (ret + tmp, .number x)
        else if c = 0x6e then
          if buf_sz < 4 then some (skipSpace buffer buf_sz ret, .null)
          else if memcmp buffer (ascii "null") 4 ≠ 0 then
            some (skipSpace buffer buf_sz ret, .null)
          else some (skipSpace buffer buf_sz (ret + 4), .null)
        else if c = 0x74 then
          if buf_sz < 4 then some (skipSpace buffer buf_sz ret, .null)
          else if memcmp buffer (ascii "true") 4 ≠ 0 then
            some (skipSpace buffer buf_sz ret, .null)
          else some (skipSpace buffer buf_sz (ret + 4), .boolean JSON_TRUE)
        else if c = 0x66 then
          if buf_sz < 5 then some (skipSpace buffer buf_sz ret, .null)
          else if memcmp buffer (ascii "false") 5 ≠ 0 then
            some (skipSpace buffer buf_sz ret, .null)
          else some (skipSpace buffer buf_sz (ret + 5), .boolean JSON_FALSE)
        else if c = 0x22 then
          let r := parseStringLoop L buffer buf_sz buf_sz (ret + 1) none
          some (skipSpace buffer buf_sz (r.1 + 1),
            .string ⟨true, (r.2.getD []).length, r.2⟩)
        else if c = 0x5b then
          match parseArrayLoop (Json_parseStr L fuel) buffer buf_sz fuel (ret + 1)
              (.array 0 0 []) with
          | none => none
          | some (ret1, out1) =>
            -- the test of `]` leaves the switch either way
            some (skipSpace buffer buf_sz (skipSpace buffer buf_sz ret1), out1)
        else if c = 0x7b then
          match parseObjectLoop (Json_parseStr L fuel) buffer buf_sz fuel (ret + 1)
              (.object 0 0 [] []) with
          | none => none
          | some (ret1, out1) =>
            -- the test of the closing brace leaves the switch either way
            some (skipSpace buffer buf_sz (skipSpace buffer buf_sz ret1), out1)
        else some (skipSpace buffer buf_sz ret, .null)

/-! ## A C library on integers

An instance of `Libc` for evaluating the model on concrete inputs. It converts integers of at
most 15 digits, on which every conforming C library agrees; on every other input it renders
nothing and converts nothing. -/

/-- Decimal digits of `n`, most significant first, in front of `acc`. -/
def decDigitsAux : Nat → Nat → List Nat → List Nat
  | 0, _, acc => acc
  | fuel + 1, n, acc =>
    if n < 10 then (48 + n) :: acc
    else decDigitsAux fuel (n / 10) ((48 + n % 10) :: acc)

/-- Decimal digits of a number below `10 ^ 15`. -/
def decDigits (n : Nat) : List Nat := decDigitsAux 15 n []

/-- Value of a run of decimal digits read after the value `acc`. -/
def decValue (acc : Nat) : List Nat → Nat
  | [] => acc
  | c :: cs => decValue (10 * acc + (c - 48)) cs

/-- The function `isxdigit`. -/
def isxdigit (c : Nat) : Bool :=
  decide ((48 ≤ c ∧ c ≤ 57) ∨ (65 ≤ c ∧ c ≤ 70) ∨ (97 ≤ c ∧ c ≤ 102))

/-- Value of one hexadecimal digit. -/
def hexDigitValue (c : Nat) : Nat :=
  if c ≤ 57 then c - 48 else if c ≤ 70 then c - 55 else c - 87

/-- Value of a run of hexadecimal digits read after the value `acc`. -/
def hexValue (acc : Nat) : List Nat → Nat
  | [] => acc
  | c :: cs => hexValue (16 * acc + hexDigitValue c) cs

/-- The C library on integers. `%.16g` renders an integer of at most 15 digits in decimal
with its sign. `%lf` converts a run of at most 15 decimal digits that is not followed by one
of `. e E x X`. `%4hx` converts a run of at most four hexadecimal digits that does not begin
with `0x` or `0X`. -/
def intLibc : Libc where
  fmt_g16 := fun x =>
    match x with
    | .fin q =>
      if q.den = 1 ∧ q.num.natAbs < 1000000000000000 then
        (if q.num < 0 then [0x2d] else []) ++ decDigits q.num.natAbs
      else []
    | _ => []
  scan_lf := fun s =>
    let ds := s.takeWhile isdigit
    let next := s.getD ds.length 0
    if ds.length = 0 ∨ ds.length > 15 then none
    else if next = 0x2e ∨ next = 0x65 ∨ next = 0x45 ∨ next = 0x78 ∨ next = 0x58 then none
    else some (.fin (decValue 0 ds : Nat), ds.length)
  scan_hx4 := fun s =>
    let ds := (s.take 4).takeWhile isxdigit
    if ds.length = 0 then none
    else if s.getD 0 0 = 0x30 ∧ (s.getD 1 0 = 0x78 ∨ s.getD 1 0 = 0x58) then none
    else some (hexValue 0 ds, ds.length)

/-- The names in the live slots `0 .. len - 1` of `field_names` are pairwise distinct under
`Json_stringCmp`. -/
def namesDistinct (len : Nat) (field_names : List Json_String) : Prop :=
  ∀ i, i < len → ∀ j, j < len → i ≠ j →
    Json_stringCmp (field_names.getD i Json_String.zero) (field_names.getD j Json_String.zero) ≠ 0

instance (len : Nat) (field_names : List Json_String) :
    Decidable (namesDistinct len field_names) := by
  unfold namesDistinct
  infer_instance

/-- No two live fields of an Object have equal names (true of every value that is not an
Object). -/
def Json_Value.distinctNames : Json_Value → Prop
  | .object len _ field_names _ => namesDistinct len field_names
  | _ => True

instance (o : Json_Value) : Decidable o.distinctNames := by
  cases o <;> unfold Json_Value.distinctNames <;> infer_instance

/-- The `len` field of an Array or Object is a `size_t` value. -/
def Json_Value.lenInRange : Json_Value → Prop
  | .object len _ _ _ => len < SIZE_MOD
  | .array len _ _ => len < SIZE_MOD
  | _ => True

/-- Objects obtained from an empty Object (`len = 0`) by calls of `Json_objectSet` and
`Json_objectDelete`. -/
inductive Built : Json_Value → Prop where
  | empty (cap : Nat) (field_names : List Json_String) (field_values : List Json_Value) :
      Built (.object 0 cap field_names field_values)
  | set (o : Json_Value) (field : Json_String) (src : Json_Value) :
      Built o → Built (Json_objectSet o field src)
  | delete (o : Json_Value) (field : Json_String) :
      Built o → Built (Json_objectDelete o field)

mutual
/-- Every Object inside a value, at any depth, has pairwise distinct live names. -/
def Json_Value.allDistinct : Json_Value → Prop
  | .object len _ field_names field_values =>
    namesDistinct len field_names ∧ allDistinctList field_values
  | .array _ _ elems => allDistinctList elems
  | _ => True
/-- Every value of the list satisfies `Json_Value.allDistinct`. -/
def allDistinctList : List Json_Value → Prop
  | [] => True
  | v :: vs => v.allDistinct ∧ allDistinctList vs
end

/-! ## Notions of the specification -/

/-- The text under which the specification prints a non-finite Number: `Infinity`,
`-Infinity`, `NaN`, `-NaN` (nothing for a finite number). -/
def nonFiniteName : Json_Number → List Nat
  | .inf false => ascii "Infinity"
  | .inf true => ascii "-Infinity"
  | .nan false => ascii "NaN"
  | .nan true => ascii "-NaN"
  | .fin _ => []

/-- The four lowercase hexadecimal digits of a number below 65536. -/
def hex4 (n : Nat) : List Nat :=
  [hexDigit (n / 4096 % 16), hexDigit (n / 256 % 16), hexDigit (n / 16 % 16), hexDigit (n % 16)]

/-- The well-formed UTF-8 encoding of a code point (RFC 3629): one byte below U+0080, two
bytes below U+0800, three bytes below U+10000, four bytes from there on. -/
def utf8_encode (c : Nat) : List Nat :=
  if c < 0x80 then [c]
  else if c < 0x800 then [0xC0 + c / 64, 0x80 + c % 64]
  else if c < 0x10000 then [0xE0 + c / 4096, 0x80 + c / 64 % 64, 0x80 + c % 64]
  else [0xF0 + c / 262144, 0x80 + c / 4096 % 64, 0x80 + c / 64 % 64, 0x80 + c % 64]

/-- A natural number written in decimal, without leading zeros. -/
def decimal (n : Nat) : List Nat := decDigitsAux (n + 1) n []

/-- One token of a clean JSON string: one printable ASCII character (0x20..0x7E) other than
the quote, the backslash and the slash; or a backslash followed by one of the quote, the
backslash, the slash, `b`, `f`, `n`, `r`, `t`; or a backslash, `u` and exactly four
hexadecimal digits. -/
def cleanToken (t : List Nat) : Bool :=
  match t with
  | [c] => decide (0x20 ≤ c ∧ c ≤ 0x7e ∧ c ≠ 0x22 ∧ c ≠ 0x5c ∧ c ≠ 0x2f)
  | [b, e] =>
    decide (b = 0x5c ∧ (e = 0x22 ∨ e = 0x5c ∨ e = 0x2f ∨ e = 0x62 ∨ e = 0x66 ∨ e = 0x6e
      ∨ e = 0x72 ∨ e = 0x74))
  | [b, u, h1, h2, h3, h4] =>
    decide (b = 0x5c ∧ u = 0x75) && isxdigit h1 && isxdigit h2 && isxdigit h3 && isxdigit h4
  | _ => false

/-! ## Lemmas on buffers -/

theorem bufSet_length_ge {α : Type} (buf : List α) (i : Nat) (v pad : α) :
    i < (bufSet buf i v pad).length := by
  simp [bufSet]
  omega

theorem bufSet_getElem?_self {α : Type} (buf : List α) (i : Nat) (v pad : α) :
    (bufSet buf i v pad)[i]? = some v := by
  unfold bufSet
  have h : ((buf ++ List.replicate (i - buf.length) pad).take i).length = i := by
    simp
    omega
  rw [List.getElem?_append_right (by omega)]
  simp [h]

theorem bufSet_getD_self {α : Type} (buf : List α) (i : Nat) (v pad d : α) :
    (bufSet buf i v pad).getD i d = v := by
  rw [List.getD_eq_getElem?_getD, bufSet_getElem?_self]
  rfl

theorem bufSet_getD_ne {α : Type} (buf : List α) (i j : Nat) (v pad : α) (h : j ≠ i) :
    (bufSet buf i v pad).getD j pad = buf.getD j pad := by
  unfold bufSet
  have hl : ((buf ++ List.replicate (i - buf.length) pad).take i).length = i := by
    simp
    omega
  rw [List.getD_eq_getElem?_getD, List.getD_eq_getElem?_getD]
  rcases Nat.lt_or_gt_of_ne h with hlt | hgt
  · rw [List.getElem?_append_left (by omega), List.getElem?_take_of_lt hlt]
    by_cases hj : j < buf.length
    · rw [List.getElem?_append_left hj]
    · rw [List.getElem?_append_right (by omega)]
      have : buf[j]? = none := List.getElem?_eq_none (by omega)
      rw [this]
      have hr : j - buf.length < i - buf.length := by omega
      simp [List.getElem?_replicate, hr]
  · rw [List.getElem?_append_right (by omega), hl]
    obtain ⟨k, rfl⟩ : ∃ k, j = i + 1 + k := ⟨j - i - 1, by omega⟩
    have : i + 1 + k - i = k + 1 := by omega
    rw [this]
    simp

theorem bufSet_getElem?_lt {α : Type} (buf : List α) (i j : Nat) (v pad : α) (h : j < i)
    (hb : i ≤ buf.length) : (bufSet buf i v pad)[j]? = buf[j]? := by
  unfold bufSet
  have h0 : i - buf.length = 0 := by omega
  rw [h0]
  simp only [List.replicate_zero, List.append_nil]
  rw [List.getElem?_append_left (by simp; omega), List.getElem?_take_of_lt h]

theorem memmove_getElem?_lt {α : Type} (buf : List α) (i n j : Nat) (h : j < i) :
    (memmove buf i (i + 1) n)[j]? = buf[j]? := by
  unfold memmove
  by_cases hb : i ≤ buf.length
  · rw [List.append_assoc, List.getElem?_append_left (by simp; omega),
      List.getElem?_take_of_lt h]
  · have h1 : buf.take i = buf := List.take_of_length_le (by omega)
    have h2 : buf.drop (i + 1) = [] := List.drop_of_length_le (by omega)
    have h3 : buf.drop (i + n) = [] := List.drop_of_length_le (by omega)
    simp [h1, h2, h3]

theorem memmove_getElem?_ge {α : Type} (buf : List α) (i n j : Nat) (h : i ≤ j)
    (hn : j < i + n) : (memmove buf i (i + 1) n)[j]? = buf[j + 1]? := by
  unfold memmove
  by_cases hb : i ≤ buf.length
  · have hl : (buf.take i).length = i := by simp; omega
    rw [List.append_assoc, List.getElem?_append_right (by omega), hl]
    by_cases hj : j + 1 < buf.length
    · rw [List.getElem?_append_left (by simp; omega), List.getElem?_take_of_lt (by omega),
        List.getElem?_drop]
      congr 1
      omega
    · have h3 : buf.drop (i + n) = [] := List.drop_of_length_le (by omega)
      rw [h3, List.append_nil, List.getElem?_eq_none (by simp; omega),
        List.getElem?_eq_none (by omega)]
  · have h1 : buf.take i = buf := List.take_of_length_le (by omega)
    have h2 : buf.drop (i + 1) = [] := List.drop_of_length_le (by omega)
    have h3 : buf.drop (i + n) = [] := List.drop_of_length_le (by omega)
    simp only [h1, h2, h3, List.take_nil, List.append_nil]
    rw [List.getElem?_eq_none (by omega), List.getElem?_eq_none (by omega)]

theorem memmove_getD_lt {α : Type} (buf : List α) (i n j : Nat) (d : α) (h : j < i) :
    (memmove buf i (i + 1) n).getD j d = buf.getD j d := by
  rw [List.getD_eq_getElem?_getD, List.getD_eq_getElem?_getD, memmove_getElem?_lt buf i n j h]

theorem memmove_getD_ge {α : Type} (buf : List α) (i n j : Nat) (d : α) (h : i ≤ j)
    (hn : j < i + n) : (memmove buf i (i + 1) n).getD j d = buf.getD (j + 1) d := by
  rw [List.getD_eq_getElem?_getD, List.getD_eq_getElem?_getD,
    memmove_getElem?_ge buf i n j h hn]

/-! ## Lemmas on string comparison -/

theorem getD_succ_tail (a : List Nat) (k : Nat) : a.getD (k + 1) 0 = a.tail.getD k 0 := by
  cases a <;> simp

theorem getD_zero_headD (a : List Nat) : a.getD 0 0 = a.headD 0 := by
  cases a <;> simp

theorem memcmp_eq_zero_iff (a b : List Nat) (n : Nat) :
    memcmp a b n = 0 ↔ ∀ k, k < n → a.getD k 0 = b.getD k 0 := by
  induction n generalizing a b with
  | zero => simp [memcmp]
  | succ n ih =>
    unfold memcmp
    by_cases h : a.headD 0 = b.headD 0
    · rw [if_pos h, ih]
      constructor
      · intro hk k hlt
        cases k with
        | zero => rw [getD_zero_headD, getD_zero_headD, h]
        | succ k => rw [getD_succ_tail, getD_succ_tail]; exact hk k (by omega)
      · intro hk k hlt
        rw [← getD_succ_tail, ← getD_succ_tail]
        exact hk (k + 1) (by omega)
    · rw [if_neg h]
      constructor
      · intro h0
        exact absurd (by omega) h
      · intro hk
        have := hk 0 (by omega)
        rw [getD_zero_headD, getD_zero_headD] at this
        exact absurd this h

theorem Json_stringCmp_eq_zero_iff (a b : Json_String) :
    Json_stringCmp a b = 0 ↔
      (a.data = none ∧ b.data = none) ∨
      (∃ da db, a.data = some da ∧ b.data = some db ∧ a.len = b.len ∧
        ∀ k, k < a.len → da.getD k 0 = db.getD k 0) := by
  unfold Json_stringCmp
  rcases ha : a.data with _ | da <;> rcases hb : b.data with _ | db
  · simp
  · simp
  · simp
  · simp only [false_and, false_or, reduceCtorEq, Option.some.injEq]
    constructor
    · intro h
      refine ⟨da, db, rfl, rfl, ?_⟩
      by_cases hm : memcmp da db (if a.len < b.len then a.len else b.len) = 0
      · rw [if_pos hm] at h
        have hlen : a.len = b.len := by
          by_contra hne
          rcases Nat.lt_or_gt_of_ne hne with hlt | hgt
          · rw [if_pos hlt] at h; omega
          · rw [if_neg (by omega), if_pos hgt] at h; omega
        refine ⟨hlen, ?_⟩
        rw [if_neg (by omega)] at hm
        rw [hlen]
        exact (memcmp_eq_zero_iff da db b.len).mp hm
      · rw [if_neg hm] at h
        exact absurd h hm
    · rintro ⟨da1, db1, h1, h2, hlen, hk⟩
      subst h1 h2
      have hm : memcmp da db (if a.len < b.len then a.len else b.len) = 0 := by
        rw [if_neg (by omega), memcmp_eq_zero_iff]
        rw [hlen] at hk
        exact hk
      rw [if_pos hm, if_neg (by omega), if_neg (by omega)]

theorem Json_stringCmp_self (a : Json_String) : Json_stringCmp a a = 0 := by
  rw [Json_stringCmp_eq_zero_iff]
  rcases h : a.data with _ | da
  · left; exact ⟨rfl, rfl⟩
  · right; exact ⟨da, da, rfl, rfl, rfl, fun _ _ => rfl⟩

theorem Json_stringCmp_zero_symm {a b : Json_String} (h : Json_stringCmp a b = 0) :
    Json_stringCmp b a = 0 := by
  rw [Json_stringCmp_eq_zero_iff] at h ⊢
  rcases h with ⟨ha, hb⟩ | ⟨da, db, ha, hb, hlen, hk⟩
  · left; exact ⟨hb, ha⟩
  · right
    exact ⟨db, da, hb, ha, hlen.symm, fun k hlt => (hk k (by omega)).symm⟩

theorem Json_stringCmp_zero_trans {a b c : Json_String} (h1 : Json_stringCmp a b = 0)
    (h2 : Json_stringCmp b c = 0) : Json_stringCmp a c = 0 := by
  rw [Json_stringCmp_eq_zero_iff] at h1 h2 ⊢
  rcases h1 with ⟨ha, hb⟩ | ⟨da, db, ha, hb, hlen, hk⟩
  · rcases h2 with ⟨_, hc⟩ | ⟨db2, dc, hb2, _, _, _⟩
    · left; exact ⟨ha, hc⟩
    · rw [hb] at hb2; cases hb2
  · rcases h2 with ⟨hb2, _⟩ | ⟨db2, dc, hb2, hc, hlen2, hk2⟩
    · rw [hb] at hb2; cases hb2
    · rw [hb] at hb2
      cases hb2
      right
      exact ⟨da, dc, ha, hc, hlen.trans hlen2, fun k hlt =>
        (hk k hlt).trans (hk2 k (by omega))⟩

theorem Json_stringCmp_zero_ne_zero (field : Json_String) (h : field.data.isNone = false) :
    Json_stringCmp Json_String.zero field ≠ 0 := by
  intro h0
  rw [Json_stringCmp_eq_zero_iff] at h0
  rcases h0 with ⟨_, hb⟩ | ⟨da, db, ha, _, _, _⟩
  · rw [hb] at h; simp at h
  · simp [Json_String.zero] at ha

/-! ## Lemmas on the field scan -/

theorem scanField_le (names : List Json_String) (field : Json_String) (n i : Nat) :
    i ≤ scanField names field n i ∧ scanField names field n i ≤ i + n := by
  induction n generalizing i with
  | zero => simp [scanField]
  | succ n ih =>
    unfold scanField
    split
    · have := ih (i + 1)
      omega
    · omega

theorem scanField_before (names : List Json_String) (field : Json_String) (n i j : Nat)
    (h1 : i ≤ j) (h2 : j < scanField names field n i) :
    Json_stringCmp (names.getD j Json_String.zero) field ≠ 0 := by
  induction n generalizing i with
  | zero => simp [scanField] at h2; omega
  | succ n ih =>
    unfold scanField at h2
    split at h2
    · rename_i hne
      by_cases hij : i = j
      · subst hij; exact hne
      · exact ih (i + 1) (by omega) h2
    · omega

theorem scanField_found (names : List Json_String) (field : Json_String) (n i : Nat)
    (h : scanField names field n i < i + n) :
    Json_stringCmp (names.getD (scanField names field n i) Json_String.zero) field = 0 := by
  induction n generalizing i with
  | zero => simp [scanField] at h
  | succ n ih =>
    unfold scanField at h ⊢
    split
    · rename_i hne
      rw [if_pos hne] at h
      exact ih (i + 1) (by omega)
    · rename_i hne
      simpa using hne

theorem scanField_none (names : List Json_String) (field : Json_String) (n i : Nat)
    (h : ∀ j, i ≤ j → j < i + n → Json_stringCmp (names.getD j Json_String.zero) field ≠ 0) :
    scanField names field n i = i + n := by
  induction n generalizing i with
  | zero => simp [scanField]
  | succ n ih =>
    unfold scanField
    rw [if_pos (h i (by omega) (by omega))]
    rw [ih (i + 1) (fun j h1 h2 => h j (by omega) (by omega))]
    omega

theorem scanField_first (names : List Json_String) (field : Json_String) (n i k : Nat)
    (h1 : i ≤ k) (h2 : k < i + n)
    (hk : Json_stringCmp (names.getD k Json_String.zero) field = 0)
    (hb : ∀ j, i ≤ j → j < k → Json_stringCmp (names.getD j Json_String.zero) field ≠ 0) :
    scanField names field n i = k := by
  induction n generalizing i with
  | zero => omega
  | succ n ih =>
    unfold scanField
    by_cases hik : i = k
    · subst hik
      rw [if_neg (by simpa using hk)]
    · rw [if_pos (hb i (by omega) (by omega))]
      exact ih (i + 1) (by omega) (by omega) (fun j h3 h4 => hb j (by omega) h4)

theorem scanField_lt_length (names : List Json_String) (field : Json_String) (n : Nat)
    (hf : field.data.isNone = false) (h : scanField names field n 0 < n) :
    scanField names field n 0 < names.length := by
  by_contra hge
  have h0 := scanField_found names field n 0 (by omega)
  rw [List.getD_eq_default _ _ (by omega)] at h0
  exact Json_stringCmp_zero_ne_zero field hf h0

/-! ## Arrays: deletion and append -/

theorem size_sub_one (len : Nat) (h0 : 0 < len) (h : len < SIZE_MOD) :
    size_sub len 1 = len - 1 := by
  simp only [size_sub, SIZE_MOD] at *
  omega

theorem size_sub_sub_one (len i : Nat) (hi : i < len) (h : len < SIZE_MOD) :
    size_sub (size_sub len i) 1 = len - i - 1 := by
  simp only [size_sub, SIZE_MOD] at *
  omega

theorem size_add_one (len : Nat) (h : len + 1 < SIZE_MOD) : size_add len 1 = len + 1 := by
  simp only [size_add, SIZE_MOD] at *
  omega

theorem size_add_one_le (len : Nat) : size_add len 1 ≤ len + 1 := by
  simp only [size_add, SIZE_MOD]
  omega

/-- C5 (the code at the failing inputs): `Json_arrayDelete` is a no-op for `idx > len`, but
with `idx` equal to the length it passes the guard `idx > len` and decrements the length. An
array of length 1 deleted at index 1 is left with length 0, and the empty array deleted at
index 0 is left with the length `SIZE_MAX`. -/
theorem Json_arrayDelete_at_length_not_noop :
    (∀ len cap elems idx, idx > len →
      Json_arrayDelete (.array len cap elems) idx = .array len cap elems) ∧
    Json_arrayDelete (.array 1 128 [.boolean 1]) 1 = .array 0 128 [.boolean 1] ∧
    Json_arrayDelete (.array 0 0 []) 0 = .array 18446744073709551615 0 [] := by
  refine ⟨?_, rfl, rfl⟩
  intro len cap elems idx h
  unfold Json_arrayDelete
  simp only
  rw [if_pos h]

/-- C6: for `idx < len`, `Json_arrayDelete` leaves the length `len - 1`, every slot `j < idx`
unchanged, and in every slot `j` with `idx ≤ j < len - 1` the element that was in slot
`j + 1`; the capacity is unchanged. -/
theorem Json_arrayDelete_in_range (len cap : Nat) (elems : List Json_Value) (idx : Nat)
    (hidx : idx < len) (hlen : len < SIZE_MOD) :
    ∃ elems1, Json_arrayDelete (.array len cap elems) idx = .array (len - 1) cap elems1 ∧
      (∀ j, j < idx → elems1.getD j .null = elems.getD j .null) ∧
      (∀ j, idx ≤ j → j < len - 1 → elems1.getD j .null = elems.getD (j + 1) .null) := by
  refine ⟨memmove elems idx (idx + 1) (len - idx - 1), ?_, ?_, ?_⟩
  · unfold Json_arrayDelete
    simp only
    rw [if_neg (by omega), size_sub_one len (by omega) hlen, size_sub_sub_one len idx hidx hlen]
  · intro j hj
    exact memmove_getD_lt elems idx _ j _ hj
  · intro j h1 h2
    exact memmove_getD_ge elems idx _ j _ h1 (by omega)

/-- An instance of C6: deleting index 1 of a three-element Array. -/
theorem Json_arrayDelete_in_range_witness :
    ∃ elems1, Json_arrayDelete (.array 3 128 [.null, .boolean 1, .boolean 0]) 1
        = .array (3 - 1) 128 elems1 ∧
      (∀ j, j < 1 → elems1.getD j .null = [Json_Value.null, .boolean 1, .boolean 0].getD j .null) ∧
      (∀ j, 1 ≤ j → j < 3 - 1 →
        elems1.getD j .null = [Json_Value.null, .boolean 1, .boolean 0].getD (j + 1) .null) :=
  Json_arrayDelete_in_range 3 128 [.null, .boolean 1, .boolean 0] 1 (by decide) (by decide)

/-- C7: for an Array with `len ≤ cap` (its `len` stored elements, of two bytes or more each,
lying within the address space), `Json_arrayAppend` yields the
length `len + 1` with `src` in slot `len` and every earlier slot unchanged; the capacity
stays when `len + 1 ≤ cap` and otherwise becomes 128 if it was below 128 and twice its value
if not; it never decreases and the new length is at most the new capacity. -/
theorem Json_arrayAppend_spec (len cap : Nat) (elems : List Json_Value) (src : Json_Value)
    (hlc : len ≤ cap) (hmem : 2 * len < SIZE_MOD) :
    ∃ cap1 elems1, Json_arrayAppend (.array len cap elems) src = .array (len + 1) cap1 elems1 ∧
      elems1.getD len .null = src ∧
      (∀ j, j < len → elems1.getD j .null = elems.getD j .null) ∧
      cap1 = (if len + 1 ≤ cap then cap else if cap < 128 then 128 else 2 * cap) ∧
      cap ≤ cap1 ∧ len + 1 ≤ cap1 := by
  have h1 : size_add len 1 = len + 1 := size_add_one len (by simp only [SIZE_MOD] at *; omega)
  refine ⟨if len + 1 ≤ cap then cap else if cap < 128 then 128 else 2 * cap,
    bufSet elems len src .null, ?_, bufSet_getD_self _ _ _ _ _, ?_, rfl, ?_, ?_⟩
  · unfold Json_arrayAppend
    simp only [h1]
    by_cases h : len + 1 ≤ cap
    · rw [if_neg (by omega), if_pos h]
    · have h2 : size_mul 2 cap = 2 * cap := by
        simp only [size_mul, SIZE_MOD] at *
        omega
      rw [if_pos (by omega), if_neg h, h2]
  · intro j hj
    exact bufSet_getD_ne _ _ _ _ _ (by omega)
  · split
    · omega
    · split <;> omega
  · split
    · omega
    · split <;> omega

/-- An instance of C7: appending to a full Array of capacity 1 raises the capacity to 128. -/
theorem Json_arrayAppend_spec_witness :
    ∃ cap1 elems1, Json_arrayAppend (.array 1 1 [.null]) (.boolean 1) = .array (1 + 1) cap1 elems1 ∧
      elems1.getD 1 .null = .boolean 1 ∧
      (∀ j, j < 1 → elems1.getD j .null = [Json_Value.null].getD j .null) ∧
      cap1 = (if 1 + 1 ≤ 1 then 1 else if 1 < 128 then 128 else 2 * 1) ∧
      1 ≤ cap1 ∧ 1 + 1 ≤ cap1 :=
  Json_arrayAppend_spec 1 1 [.null] (.boolean 1) (by decide) (by decide)

/-! ## Objects: lookup and deletion of an absent name -/

/-- C4: when `field` compares equal to none of the live field names, `Json_objectGet` returns
NULL and `Json_objectDelete` leaves the Object as it was (length, capacity, names and
values). -/
theorem Json_objectGet_Delete_absent (len cap : Nat) (field_names : List Json_String)
    (field_values : List Json_Value) (field : Json_String)
    (habs : ∀ i, i < len →
      Json_stringCmp (field_names.getD i Json_String.zero) field ≠ 0) :
    Json_objectGet (.object len cap field_names field_values) field = none ∧
    Json_objectDelete (.object len cap field_names field_values) field
      = .object len cap field_names field_values := by
  have hs : scanField field_names field len 0 = len := by
    have := scanField_none field_names field len 0 (fun j _ h2 => habs j (by omega))
    omega
  constructor
  · unfold Json_objectGet
    simp only [hs]
    split <;> simp
  · unfold Json_objectDelete
    simp only [hs]
    split <;> simp

/-- An instance of C4: the name "b" on an Object whose only field is "a". -/
theorem Json_objectGet_Delete_absent_witness :
    Json_objectGet (.object 1 128 [JSON_STRLIT (ascii "a")] [.boolean 1])
      (JSON_STRLIT (ascii "b")) = none ∧
    Json_objectDelete (.object 1 128 [JSON_STRLIT (ascii "a")] [.boolean 1])
      (JSON_STRLIT (ascii "b")) = .object 1 128 [JSON_STRLIT (ascii "a")] [.boolean 1] :=
  Json_objectGet_Delete_absent 1 128 [JSON_STRLIT (ascii "a")] [.boolean 1]
    (JSON_STRLIT (ascii "b")) (by decide)

/-! ## Objects: set, get and delete of a present name -/

theorem memmove_zero {α : Type} (buf : List α) (dst src : Nat) : memmove buf dst src 0 = buf := by
  simp [memmove]

/-- With pairwise distinct names, a name equal to `field` sits in one slot only. -/
theorem absent_of_distinct (len : Nat) (names : List Json_String) (field : Json_String)
    (hd : namesDistinct len names) (k : Nat) (hk : k < len)
    (hkf : Json_stringCmp (names.getD k Json_String.zero) field = 0)
    (j : Nat) (hj : j < len) (hjk : j ≠ k) :
    Json_stringCmp (names.getD j Json_String.zero) field ≠ 0 := by
  intro h
  exact hd j hj k hk hjk (Json_stringCmp_zero_trans h (Json_stringCmp_zero_symm hkf))

theorem scanField_of_distinct (len : Nat) (names : List Json_String) (field : Json_String)
    (hd : namesDistinct len names) (k : Nat) (hk : k < len)
    (hkf : Json_stringCmp (names.getD k Json_String.zero) field = 0) :
    scanField names field len 0 = k :=
  scanField_first names field len 0 k (by omega) (by omega) hkf
    (fun j _ hjk => absent_of_distinct len names field hd k hk hkf j (by omega) (by omega))

theorem Json_objectDelete_found (len cap : Nat) (names : List Json_String)
    (values : List Json_Value) (field : Json_String) (k : Nat)
    (hf : field.data.isNone = false) (hlen : len < SIZE_MOD)
    (hs : scanField names field len 0 = k) (hk : k < len) :
    Json_objectDelete (.object len cap names values) field
      = .object (len - 1) cap (memmove names k (k + 1) (len - k - 1))
          (memmove (bufSet values k .null .null) k (k + 1) (len - k - 1)) := by
  unfold Json_objectDelete
  simp only [hf, hs, size_sub_one len (by omega) hlen, size_sub_sub_one len k hk hlen]
  rw [if_neg (by simp), if_neg (by omega)]
  by_cases h : k < len - 1
  · rw [if_pos h]
  · rw [if_neg h]
    have h0 : len - k - 1 = 0 := by omega
    rw [h0, memmove_zero, memmove_zero]

/-- C8: for an Object with pairwise distinct names and a present (non-NULL) string `field`
that equals the name in the live slot `k`, `Json_objectDelete` leaves the length `len - 1`,
keeps name and value of every slot before `k`, moves name and value of every later slot
one slot down together, and afterwards `Json_objectGet` of `field` returns NULL. -/
theorem Json_objectDelete_present (len cap : Nat) (field_names : List Json_String)
    (field_values : List Json_Value) (field : Json_String) (k : Nat)
    (hd : namesDistinct len field_names) (hf : field.data.isNone = false)
    (hlen : len < SIZE_MOD) (hk : k < len)
    (hkf : Json_stringCmp (field_names.getD k Json_String.zero) field = 0) :
    ∃ names1 values1,
      Json_objectDelete (.object len cap field_names field_values) field
        = .object (len - 1) cap names1 values1 ∧
      (∀ j, j < k → names1.getD j Json_String.zero = field_names.getD j Json_String.zero ∧
        values1.getD j .null = field_values.getD j .null) ∧
      (∀ j, k ≤ j → j < len - 1 →
        names1.getD j Json_String.zero = field_names.getD (j + 1) Json_String.zero ∧
        values1.getD j .null = field_values.getD (j + 1) .null) ∧
      Json_objectGet (.object (len - 1) cap names1 values1) field = none := by
  have hs := scanField_of_distinct len field_names field hd k hk hkf
  refine ⟨_, _, Json_objectDelete_found len cap field_names field_values field k hf hlen hs hk,
    ?_, ?_, ?_⟩
  · intro j hj
    rw [memmove_getD_lt _ _ _ _ _ hj, memmove_getD_lt _ _ _ _ _ hj,
      bufSet_getD_ne _ _ _ _ _ (by omega)]
    exact ⟨rfl, rfl⟩
  · intro j h1 h2
    rw [memmove_getD_ge _ _ _ _ _ h1 (by omega), memmove_getD_ge _ _ _ _ _ h1 (by omega),
      bufSet_getD_ne _ _ _ _ _ (by omega)]
    exact ⟨rfl, rfl⟩
  · have hnone : scanField (memmove field_names k (k + 1) (len - k - 1)) field (len - 1) 0
        = len - 1 := by
      have := scanField_none (memmove field_names k (k + 1) (len - k - 1)) field (len - 1) 0
        (fun j _ h2 => by
          by_cases hj : j < k
          · rw [memmove_getD_lt _ _ _ _ _ hj]
            exact absent_of_distinct len field_names field hd k hk hkf j (by omega) (by omega)
          · rw [memmove_getD_ge _ _ _ _ _ (by omega) (by omega)]
            exact absent_of_distinct len field_names field hd k hk hkf (j + 1) (by omega)
              (by omega))
      omega
    unfold Json_objectGet
    simp only [hf, hnone]
    simp

/-- An instance of C8: deleting "a" from an Object with the fields "a" and "b". -/
theorem Json_objectDelete_present_witness :
    ∃ names1 values1,
      Json_objectDelete (.object 2 128 [JSON_STRLIT (ascii "a"), JSON_STRLIT (ascii "b")]
          [.boolean 1, .null]) (JSON_STRLIT (ascii "a"))
        = .object (2 - 1) 128 names1 values1 ∧
      (∀ j, j < 0 → names1.getD j Json_String.zero
          = [JSON_STRLIT (ascii "a"), JSON_STRLIT (ascii "b")].getD j Json_String.zero ∧
        values1.getD j .null = [Json_Value.boolean 1, .null].getD j .null) ∧
      (∀ j, 0 ≤ j → j < 2 - 1 →
        names1.getD j Json_String.zero
          = [JSON_STRLIT (ascii "a"), JSON_STRLIT (ascii "b")].getD (j + 1) Json_String.zero ∧
        values1.getD j .null = [Json_Value.boolean 1, .null].getD (j + 1) .null) ∧
      Json_objectGet (.object (2 - 1) 128 names1 values1) (JSON_STRLIT (ascii "a")) = none :=
  Json_objectDelete_present 2 128 [JSON_STRLIT (ascii "a"), JSON_STRLIT (ascii "b")]
    [.boolean 1, .null] (JSON_STRLIT (ascii "a")) 0 (by decide) (by decide) (by decide)
    (by decide) (by decide)

theorem Json_objectSet_found (len cap : Nat) (names : List Json_String)
    (values : List Json_Value) (field : Json_String) (src : Json_Value)
    (hf : field.data.isNone = false) (hs : scanField names field len 0 < len) :
    Json_objectSet (.object len cap names values) field src
      = .object len
          (if size_add len 1 > cap then (if cap < 128 then 128 else size_mul 2 cap) else cap)
          names (bufSet values (scanField names field len 0) src .null) := by
  unfold Json_objectSet
  simp only [hf]
  rw [if_neg (by simp), if_pos hs]

theorem Json_objectSet_not_found (len cap : Nat) (names : List Json_String)
    (values : List Json_Value) (field : Json_String) (src : Json_Value)
    (hf : field.data.isNone = false) (hs : ¬ scanField names field len 0 < len) :
    Json_objectSet (.object len cap names values) field src
      = .object (size_add len 1)
          (if size_add len 1 > cap then (if cap < 128 then 128 else size_mul 2 cap) else cap)
          (bufSet names len field Json_String.zero) (bufSet values len src .null) := by
  unfold Json_objectSet
  simp only [hf]
  rw [if_neg (by simp), if_neg hs]

theorem Json_objectGet_found (len cap : Nat) (names : List Json_String)
    (values : List Json_Value) (field : Json_String)
    (hf : field.data.isNone = false) (hs : scanField names field len 0 < len) :
    Json_objectGet (.object len cap names values) field
      = some (values.getD (scanField names field len 0) .null) := by
  unfold Json_objectGet
  simp only [hf]
  rw [if_neg (by simp), if_pos hs]

/-- The scan after `field` was appended in slot `len` stops at that slot. -/
theorem scanField_appended (len : Nat) (names : List Json_String) (field : Json_String)
    (hs : ¬ scanField names field len 0 < len) :
    scanField (bufSet names len field Json_String.zero) field (len + 1) 0 = len := by
  apply scanField_first _ _ _ _ _ (by omega) (by omega)
  · rw [bufSet_getD_self]
    exact Json_stringCmp_self field
  · intro j _ hj
    rw [bufSet_getD_ne _ _ _ _ _ (by omega)]
    have hle := (scanField_le names field len 0).2
    exact scanField_before names field len 0 j (by omega) (by omega)

/-- C2: for an Object with pairwise distinct names and a present (non-NULL) string `field`,
`Json_objectSet` with `v1` followed by `Json_objectSet` with `v2` gives an Object in which
the second call changed neither length nor names, the length is `len` when `field` was
already a name and `len + 1` when it was not, exactly one live slot has a name equal to
`field`, `Json_objectGet` of `field` yields `v2`, and every slot of the original Object whose
name differs from `field` keeps its name and value. -/
theorem Json_objectSet_last_write_wins (len cap : Nat) (field_names : List Json_String)
    (field_values : List Json_Value) (field : Json_String) (v1 v2 : Json_Value)
    (hd : namesDistinct len field_names) (hf : field.data.isNone = false)
    (hlen : len + 1 < SIZE_MOD) :
    ∃ len1 cap1 names1 values1 cap2 values2,
      Json_objectSet (.object len cap field_names field_values) field v1
        = .object len1 cap1 names1 values1 ∧
      Json_objectSet (.object len1 cap1 names1 values1) field v2
        = .object len1 cap2 names1 values2 ∧
      ((∃ i, i < len ∧ Json_stringCmp (field_names.getD i Json_String.zero) field = 0) →
        len1 = len) ∧
      ((∀ i, i < len → Json_stringCmp (field_names.getD i Json_String.zero) field ≠ 0) →
        len1 = len + 1) ∧
      (∃ i, i < len1 ∧ Json_stringCmp (names1.getD i Json_String.zero) field = 0 ∧
        ∀ j, j < len1 → Json_stringCmp (names1.getD j Json_String.zero) field = 0 → j = i) ∧
      Json_objectGet (.object len1 cap2 names1 values2) field = some v2 ∧
      (∀ j, j < len → Json_stringCmp (field_names.getD j Json_String.zero) field ≠ 0 →
        names1.getD j Json_String.zero = field_names.getD j Json_String.zero ∧
        values2.getD j .null = field_values.getD j .null) := by
  by_cases hs : scanField field_names field len 0 < len
  · -- the name is already there: both calls overwrite its value slot
    have h0 := scanField_found field_names field len 0 (by omega)
    have hs2 : scanField field_names field len 0 < len := hs
    refine ⟨len, _, field_names, _, _, _,
      Json_objectSet_found len cap field_names field_values field v1 hf hs,
      Json_objectSet_found len _ field_names _ field v2 hf hs, fun _ => rfl, ?_, ?_, ?_, ?_⟩
    · intro hall
      exact absurd h0 (hall _ hs)
    · refine ⟨scanField field_names field len 0, hs, h0, ?_⟩
      intro j hj hj0
      by_contra hne
      exact absent_of_distinct len field_names field hd _ hs h0 j hj hne hj0
    · rw [Json_objectGet_found _ _ _ _ _ hf hs, bufSet_getD_self]
    · intro j hj hne
      have hjs : j ≠ scanField field_names field len 0 := by
        intro h
        rw [h] at hne
        exact hne h0
      refine ⟨rfl, ?_⟩
      rw [bufSet_getD_ne _ _ _ _ _ hjs, bufSet_getD_ne _ _ _ _ _ hjs]
  · -- the name is new: the first call appends it in slot `len`, the second overwrites
    have h1 : size_add len 1 = len + 1 := size_add_one len hlen
    have hs1 := scanField_appended len field_names field hs
    have hfound : scanField (bufSet field_names len field Json_String.zero) field (len + 1) 0
        < len + 1 := by omega
    have hset1 := Json_objectSet_not_found len cap field_names field_values field v1 hf hs
    rw [h1] at hset1
    refine ⟨len + 1, _, _, _, _, _, hset1,
      Json_objectSet_found (len + 1) _ _ _ field v2 hf hfound, ?_, fun _ => rfl, ?_, ?_, ?_⟩
    · rintro ⟨i, hi, hi0⟩
      have hle := (scanField_le field_names field len 0).2
      exact absurd hi0 (scanField_before field_names field len 0 i (by omega) (by omega))
    · refine ⟨len, by omega, ?_, ?_⟩
      · rw [bufSet_getD_self]
        exact Json_stringCmp_self field
      · intro j hj hj0
        by_contra hne
        rw [bufSet_getD_ne _ _ _ _ _ hne] at hj0
        have hle := (scanField_le field_names field len 0).2
        exact scanField_before field_names field len 0 j (by omega) (by omega) hj0
    · rw [Json_objectGet_found _ _ _ _ _ hf hfound, hs1, bufSet_getD_self]
    · intro j hj _
      rw [hs1, bufSet_getD_ne _ _ _ _ _ (by omega), bufSet_getD_ne _ _ _ _ _ (by omega),
        bufSet_getD_ne _ _ _ _ _ (by omega)]
      exact ⟨rfl, rfl⟩

/-- An instance of C2: setting the new name "b" twice on an Object whose only field is
"a". -/
theorem Json_objectSet_last_write_wins_witness :
    ∃ len1 cap1 names1 values1 cap2 values2,
      Json_objectSet (.object 1 128 [JSON_STRLIT (ascii "a")] [.null]) (JSON_STRLIT (ascii "b"))
          (.boolean 1)
        = .object len1 cap1 names1 values1 ∧
      Json_objectSet (.object len1 cap1 names1 values1) (JSON_STRLIT (ascii "b")) (.boolean 0)
        = .object len1 cap2 names1 values2 ∧
      ((∃ i, i < 1 ∧ Json_stringCmp ([JSON_STRLIT (ascii "a")].getD i Json_String.zero)
          (JSON_STRLIT (ascii "b")) = 0) → len1 = 1) ∧
      ((∀ i, i < 1 → Json_stringCmp ([JSON_STRLIT (ascii "a")].getD i Json_String.zero)
          (JSON_STRLIT (ascii "b")) ≠ 0) → len1 = 1 + 1) ∧
      (∃ i, i < len1 ∧
        Json_stringCmp (names1.getD i Json_String.zero) (JSON_STRLIT (ascii "b")) = 0 ∧
        ∀ j, j < len1 →
          Json_stringCmp (names1.getD j Json_String.zero) (JSON_STRLIT (ascii "b")) = 0 →
          j = i) ∧
      Json_objectGet (.object len1 cap2 names1 values2) (JSON_STRLIT (ascii "b"))
        = some (.boolean 0) ∧
      (∀ j, j < 1 →
        Json_stringCmp ([JSON_STRLIT (ascii "a")].getD j Json_String.zero)
          (JSON_STRLIT (ascii "b")) ≠ 0 →
        names1.getD j Json_String.zero = [JSON_STRLIT (ascii "a")].getD j Json_String.zero ∧
        values2.getD j .null = [Json_Value.null].getD j .null) :=
  Json_objectSet_last_write_wins 1 128 [JSON_STRLIT (ascii "a")] [.null]
    (JSON_STRLIT (ascii "b")) (.boolean 1) (.boolean 0) (by decide) (by decide) (by decide)

/-! ## The invariant: at most one entry per name -/

theorem Json_objectSet_distinct (o : Json_Value) (field : Json_String) (src : Json_Value)
    (hd : o.distinctNames) : (Json_objectSet o field src).distinctNames := by
  cases o with
  | object len cap names values =>
    by_cases hf : field.data.isNone = false
    · by_cases hs : scanField names field len 0 < len
      · rw [Json_objectSet_found _ _ _ _ _ _ hf hs]
        exact hd
      · rw [Json_objectSet_not_found _ _ _ _ _ _ hf hs]
        have hle := size_add_one_le len
        have hsl := (scanField_le names field len 0).2
        have habs : ∀ j, j < len →
            Json_stringCmp (names.getD j Json_String.zero) field ≠ 0 := fun j hj =>
          scanField_before names field len 0 j (by omega) (by omega)
        intro i hi j hj hij
        by_cases hil : i = len
        · subst hil
          rw [bufSet_getD_self, bufSet_getD_ne _ _ _ _ _ (by omega)]
          intro h0
          exact habs j (by omega) (Json_stringCmp_zero_symm h0)
        · rw [bufSet_getD_ne _ _ _ _ _ hil]
          by_cases hjl : j = len
          · subst hjl
            rw [bufSet_getD_self]
            exact habs i (by omega)
          · rw [bufSet_getD_ne _ _ _ _ _ hjl]
            exact hd i (by omega) j (by omega) hij
    · unfold Json_objectSet
      simp only
      rw [if_pos (by simpa using hf)]
      exact hd
  | null => exact hd
  | boolean b => exact hd
  | number n => exact hd
  | string s => exact hd
  | array len cap elems => exact hd

theorem Json_objectDelete_distinct (o : Json_Value) (field : Json_String)
    (hr : o.lenInRange) (hd : o.distinctNames) :
    (Json_objectDelete o field).distinctNames := by
  cases o with
  | object len cap names values =>
    by_cases hf : field.data.isNone = false
    · by_cases hs : scanField names field len 0 < len
      · rw [Json_objectDelete_found len cap names values field _ hf hr rfl hs]
        intro i hi j hj hij
        have key : ∀ m, m < len - 1 → ∃ m1, m1 < len ∧ (m1 = m ∨ m1 = m + 1) ∧
            (m < scanField names field len 0 → m1 = m) ∧
            (scanField names field len 0 ≤ m → m1 = m + 1) ∧
            (memmove names (scanField names field len 0) (scanField names field len 0 + 1)
              (len - scanField names field len 0 - 1)).getD m Json_String.zero
              = names.getD m1 Json_String.zero := by
          intro m hm
          by_cases hmk : m < scanField names field len 0
          · exact ⟨m, by omega, Or.inl rfl, fun _ => rfl, fun h => by omega,
              memmove_getD_lt _ _ _ _ _ hmk⟩
          · exact ⟨m + 1, by omega, Or.inr rfl, fun h => by omega, fun _ => rfl,
              memmove_getD_ge _ _ _ _ _ (by omega) (by omega)⟩
        obtain ⟨i1, hi1, _, hia, hib, hie⟩ := key i hi
        obtain ⟨j1, hj1, _, hja, hjb, hje⟩ := key j hj
        rw [hie, hje]
        apply hd i1 hi1 j1 hj1
        by_cases h1 : i < scanField names field len 0 <;>
          by_cases h2 : j < scanField names field len 0
        · rw [hia h1, hja h2]; exact hij
        · rw [hia h1, hjb (by omega)]; omega
        · rw [hib (by omega), hja h2]; omega
        · rw [hib (by omega), hjb (by omega)]; omega
      · unfold Json_objectDelete
        simp only [hf]
        rw [if_neg (by simp), if_pos (by omega)]
        exact hd
    · unfold Json_objectDelete
      simp only
      rw [if_pos (by simpa using hf)]
      exact hd
  | null => exact hd
  | boolean b => exact hd
  | number n => exact hd
  | string s => exact hd
  | array len cap elems => exact hd

theorem size_add_lt (a b : Nat) : size_add a b < SIZE_MOD := by
  simp only [size_add, SIZE_MOD]
  omega

theorem size_sub_lt (a b : Nat) : size_sub a b < SIZE_MOD := by
  simp only [size_sub, SIZE_MOD]
  omega

theorem Json_objectSet_lenInRange (o : Json_Value) (field : Json_String) (src : Json_Value)
    (hr : o.lenInRange) : (Json_objectSet o field src).lenInRange := by
  cases o with
  | object len cap names values =>
    unfold Json_objectSet
    simp only
    split
    · exact hr
    · split
      · exact hr
      · exact size_add_lt len 1
  | null => exact hr
  | boolean b => exact hr
  | number n => exact hr
  | string s => exact hr
  | array len cap elems => exact hr

theorem Json_objectDelete_lenInRange (o : Json_Value) (field : Json_String)
    (hr : o.lenInRange) : (Json_objectDelete o field).lenInRange := by
  cases o with
  | object len cap names values =>
    by_cases hf : field.data.isNone = false
    · by_cases hs : scanField names field len 0 < len
      · rw [Json_objectDelete_found len cap names values field _ hf hr rfl hs]
        have h : len < SIZE_MOD := hr
        exact Nat.lt_of_le_of_lt (Nat.sub_le len 1) h
      · unfold Json_objectDelete
        simp only [hf]
        rw [if_neg (by simp), if_pos (by omega)]
        exact hr
    · unfold Json_objectDelete
      simp only
      rw [if_pos (by simpa using hf)]
      exact hr
  | null => exact hr
  | boolean b => exact hr
  | number n => exact hr
  | string s => exact hr
  | array len cap elems => exact hr

theorem Built_invariant (o : Json_Value) (h : Built o) : o.lenInRange ∧ o.distinctNames := by
  induction h with
  | empty cap names values =>
    constructor
    · simp [Json_Value.lenInRange, SIZE_MOD]
    · intro i hi
      omega
  | set o field src _ ih =>
    exact ⟨Json_objectSet_lenInRange o field src ih.1, Json_objectSet_distinct o field src ih.2⟩
  | delete o field _ ih =>
    exact ⟨Json_objectDelete_lenInRange o field ih.1,
      Json_objectDelete_distinct o field ih.1 ih.2⟩

/-! ## Typed getters -/

/-- C9: the coercion table of the typed getters. With `got` the result of `Json_objectGet`:
an absent field gives the fallback; Null gives `JSON_FALSE`, 0 and the empty string; a
Boolean `b` gives `b`, the number `b` (0 or 1) and "true" or "false"; an Array gives the
payload of its single element when it has exactly one element of the requested type and the
fallback otherwise; an Object gives the fallback. -/
theorem typed_getter_coercion_table (L : Libc) (o : Json_Value) (field : Json_String)
    (fbB : Json_Boolean) (fbN : Json_Number) (fbS : Json_String) :
    (Json_objectGet o field = none →
      Json_objectGetBool o field fbB = fbB ∧ Json_objectGetNum o field fbN = fbN ∧
      Json_objectGetStr L o field fbS = fbS) ∧
    (Json_objectGet o field = some .null →
      Json_objectGetBool o field fbB = JSON_FALSE ∧ Json_objectGetNum o field fbN = .fin 0 ∧
      Json_objectGetStr L o field fbS = JSON_STRLIT (ascii "")) ∧
    (∀ b, Json_objectGet o field = some (.boolean b) →
      Json_objectGetBool o field fbB = b ∧ Json_objectGetNum o field fbN = .fin (b : ℚ) ∧
      Json_objectGetStr L o field fbS
        = (if b ≠ 0 then JSON_STRLIT (ascii "true") else JSON_STRLIT (ascii "false"))) ∧
    (∀ len cap elems, Json_objectGet o field = some (.array len cap elems) →
      (∀ b, len = 1 → elems.getD 0 .null = .boolean b → Json_objectGetBool o field fbB = b) ∧
      ((len ≠ 1 ∨ ∀ b, elems.getD 0 .null ≠ .boolean b) →
        Json_objectGetBool o field fbB = fbB) ∧
      (∀ x, len = 1 → elems.getD 0 .null = .number x → Json_objectGetNum o field fbN = x) ∧
      ((len ≠ 1 ∨ ∀ x, elems.getD 0 .null ≠ .number x) →
        Json_objectGetNum o field fbN = fbN) ∧
      (∀ t, len = 1 → elems.getD 0 .null = .string t → Json_objectGetStr L o field fbS = t) ∧
      ((len ≠ 1 ∨ ∀ t, elems.getD 0 .null ≠ .string t) →
        Json_objectGetStr L o field fbS = fbS)) ∧
    (∀ len cap names values, Json_objectGet o field = some (.object len cap names values) →
      Json_objectGetBool o field fbB = fbB ∧ Json_objectGetNum o field fbN = fbN ∧
      Json_objectGetStr L o field fbS = fbS) := by
  refine ⟨?_, ?_, ?_, ?_, ?_⟩
  · intro h
    simp [Json_objectGetBool, Json_objectGetNum, Json_objectGetStr, h]
  · intro h
    simp [Json_objectGetBool, Json_objectGetNum, Json_objectGetStr, h]
  · intro b h
    simp [Json_objectGetBool, Json_objectGetNum, Json_objectGetStr, h, c_double_of_int]
  · intro len cap elems h
    refine ⟨?_, ?_, ?_, ?_, ?_, ?_⟩
    · intro b h1 h2
      simp only [Json_objectGetBool, h, h1, h2]
      simp
    · intro h1
      simp only [Json_objectGetBool, h]
      rcases h1 with h1 | h1
      · rw [if_pos h1]
      · split
        · rfl
        · split
          · rename_i b hb
            exact absurd hb (h1 b)
          · rfl
    · intro x h1 h2
      simp only [Json_objectGetNum, h, h1, h2]
      simp
    · intro h1
      simp only [Json_objectGetNum, h]
      rcases h1 with h1 | h1
      · rw [if_pos h1]
      · split
        · rfl
        · split
          · rename_i x hx
            exact absurd hx (h1 x)
          · rfl
    · intro t h1 h2
      simp only [Json_objectGetStr, h, h1, h2]
      simp
    · intro h1
      simp only [Json_objectGetStr, h]
      rcases h1 with h1 | h1
      · rw [if_pos h1]
      · split
        · rfl
        · split
          · rename_i t ht
            exact absurd ht (h1 t)
          · rfl
  · intro len cap names values h
    simp [Json_objectGetBool, Json_objectGetNum, Json_objectGetStr, h]

/-- The three examples of C9: a Boolean read as a number, a one-element Array read as a
Boolean, an Object read as a Boolean. -/
theorem typed_getter_coercion_table_witness :
    Json_objectGetNum (.object 1 128 [JSON_STRLIT (ascii "a")] [.boolean JSON_TRUE])
      (JSON_STRLIT (ascii "a")) (.fin 9) = .fin 1 ∧
    Json_objectGetBool (.object 1 128 [JSON_STRLIT (ascii "a")] [.array 1 128 [.boolean JSON_TRUE]])
      (JSON_STRLIT (ascii "a")) JSON_FALSE = JSON_TRUE ∧
    Json_objectGetBool (.object 1 128 [JSON_STRLIT (ascii "a")] [.object 0 0 [] []])
      (JSON_STRLIT (ascii "a")) JSON_TRUE = JSON_TRUE :=
  ⟨((typed_getter_coercion_table intLibc
      (.object 1 128 [JSON_STRLIT (ascii "a")] [.boolean JSON_TRUE]) (JSON_STRLIT (ascii "a"))
      JSON_FALSE (.fin 9) Json_String.zero).2.2.1 JSON_TRUE rfl).2.1,
   ((typed_getter_coercion_table intLibc
      (.object 1 128 [JSON_STRLIT (ascii "a")] [.array 1 128 [.boolean JSON_TRUE]])
      (JSON_STRLIT (ascii "a")) JSON_FALSE (.fin 0) Json_String.zero).2.2.2.1 1 128
      [.boolean JSON_TRUE] rfl).1 JSON_TRUE rfl rfl,
   ((typed_getter_coercion_table intLibc
      (.object 1 128 [JSON_STRLIT (ascii "a")] [.object 0 0 [] []])
      (JSON_STRLIT (ascii "a")) JSON_TRUE (.fin 0) Json_String.zero).2.2.2.2 0 0 [] [] rfl).1⟩

/-- C10 (the code at the failing inputs): on a field holding a Number `Json_objectGetBool`
returns 0 for the number 0, 1 for the number 1 and the fallback when the number truncates to
an `int` above 2; but on the Number 2 with fallback `JSON_FALSE` it returns 1, on the Number
-1 with fallback `JSON_FALSE` it returns 1, and on the Number 0.5 with fallback `JSON_TRUE` it
returns 0: the guard `(int)n > 2` lets these numbers through and `!!(int)n` coerces them. -/
theorem Json_objectGetBool_number_coerced :
    (∀ o field fallback x, Json_objectGet o field = some (.number x) →
      (x = .fin 0 → Json_objectGetBool o field fallback = 0) ∧
      (x = .fin 1 → Json_objectGetBool o field fallback = 1) ∧
      (c_int_of_double x > 2 → Json_objectGetBool o field fallback = fallback)) ∧
    Json_objectGetBool (.object 1 128 [JSON_STRLIT (ascii "a")] [.number (.fin 2)])
      (JSON_STRLIT (ascii "a")) JSON_FALSE = 1 ∧
    Json_objectGetBool (.object 1 128 [JSON_STRLIT (ascii "a")] [.number (.fin (-1))])
      (JSON_STRLIT (ascii "a")) JSON_FALSE = 1 ∧
    Json_objectGetBool (.object 1 128 [JSON_STRLIT (ascii "a")]
        [.number (.fin (Rat.mk' 1 2 (by decide) (by decide)))])
      (JSON_STRLIT (ascii "a")) JSON_TRUE = 0 := by
  refine ⟨?_, by decide, by decide, by decide⟩
  intro o field fallback x h
  refine ⟨?_, ?_, ?_⟩
  · intro hx
    subst hx
    have h0 : c_int_of_double (.fin 0) = 0 := by decide
    simp only [Json_objectGetBool, h, h0]
    rfl
  · intro hx
    subst hx
    have h1 : c_int_of_double (.fin 1) = 1 := by decide
    simp only [Json_objectGetBool, h, h1]
    rfl
  · intro hx
    simp only [Json_objectGetBool, h]
    rw [if_pos hx]

/-! ## The invariant on the values built by the parser -/

theorem allDistinctList_iff (l : List Json_Value) :
    allDistinctList l ↔ ∀ v, v ∈ l → v.allDistinct := by
  induction l with
  | nil => simp [allDistinctList]
  | cons a l ih => simp [allDistinctList, ih]

theorem allDistinctList_bufSet (l : List Json_Value) (i : Nat) (v : Json_Value)
    (hl : allDistinctList l) (hv : v.allDistinct) : allDistinctList (bufSet l i v .null) := by
  rw [allDistinctList_iff] at hl ⊢
  intro w hw
  unfold bufSet at hw
  rw [List.mem_append] at hw
  rcases hw with hw | hw
  · have hw1 := List.mem_of_mem_take hw
    rw [List.mem_append] at hw1
    rcases hw1 with hw1 | hw1
    · exact hl w hw1
    · rw [(List.mem_replicate.mp hw1).2]
      simp [Json_Value.allDistinct]
  · rw [List.mem_cons] at hw
    rcases hw with hw | hw
    · rw [hw]; exact hv
    · exact hl w (List.mem_of_mem_drop hw)

theorem Json_arrayAppend_allDistinct (a src : Json_Value) (ha : a.allDistinct)
    (hs : src.allDistinct) : (Json_arrayAppend a src).allDistinct := by
  cases a with
  | array len cap elems =>
    unfold Json_arrayAppend
    simp only [Json_Value.allDistinct] at ha ⊢
    exact allDistinctList_bufSet elems len src ha hs
  | null => exact ha
  | boolean b => exact ha
  | number n => exact ha
  | string s => exact ha
  | object len cap names values => exact ha

theorem Json_objectSet_allDistinct (o : Json_Value) (field : Json_String) (src : Json_Value)
    (ho : o.allDistinct) (hs : src.allDistinct) : (Json_objectSet o field src).allDistinct := by
  cases o with
  | object len cap names values =>
    simp only [Json_Value.allDistinct] at ho
    have hd := Json_objectSet_distinct (.object len cap names values) field src ho.1
    by_cases hf : field.data.isNone = false
    · by_cases hsc : scanField names field len 0 < len
      · rw [Json_objectSet_found _ _ _ _ _ _ hf hsc] at hd ⊢
        simp only [Json_Value.allDistinct]
        exact ⟨hd, allDistinctList_bufSet _ _ _ ho.2 hs⟩
      · rw [Json_objectSet_not_found _ _ _ _ _ _ hf hsc] at hd ⊢
        simp only [Json_Value.allDistinct]
        exact ⟨hd, allDistinctList_bufSet _ _ _ ho.2 hs⟩
    · unfold Json_objectSet
      simp only
      rw [if_pos (by simpa using hf)]
      simp only [Json_Value.allDistinct]
      exact ho
  | null => exact ho
  | boolean b => exact ho
  | number n => exact ho
  | string s => exact ho
  | array len cap elems => exact ho

theorem parseArrayLoop_allDistinct
    (parse : Nat → List Nat → Json_Value → Option (Nat × Json_Value))
    (hp : ∀ sz buf o r v, parse sz buf o = some (r, v) → o.allDistinct → v.allDistinct)
    (buffer : List Nat) (buf_sz fuel ret : Nat) (out : Json_Value) (r : Nat) (v : Json_Value)
    (h : parseArrayLoop parse buffer buf_sz fuel ret out = some (r, v))
    (ho : out.allDistinct) : v.allDistinct := by
  induction fuel generalizing ret out with
  | zero => simp [parseArrayLoop] at h
  | succ fuel ih =>
    unfold parseArrayLoop at h
    simp only at h
    split at h
    · simp at h
    · rename_i r1 elem hparse
      have he : elem.allDistinct := hp _ _ _ _ _ hparse (by simp [Json_Value.allDistinct])
      have ho1 := Json_arrayAppend_allDistinct out elem ho he
      split at h
      · exact ih _ _ h ho1
      · simp only [Option.some.injEq, Prod.mk.injEq] at h
        rw [← h.2]
        exact ho1

theorem parseObjectLoop_allDistinct
    (parse : Nat → List Nat → Json_Value → Option (Nat × Json_Value))
    (hp : ∀ sz buf o r v, parse sz buf o = some (r, v) → o.allDistinct → v.allDistinct)
    (buffer : List Nat) (buf_sz fuel ret : Nat) (out : Json_Value) (r : Nat) (v : Json_Value)
    (h : parseObjectLoop parse buffer buf_sz fuel ret out = some (r, v))
    (ho : out.allDistinct) : v.allDistinct := by
  induction fuel generalizing ret out with
  | zero => simp [parseObjectLoop] at h
  | succ fuel ih =>
    unfold parseObjectLoop at h
    simp only at h
    split at h
    · simp at h
    · split at h
      · simp only [Option.some.injEq, Prod.mk.injEq] at h
        rw [← h.2]
        exact ho
      · rename_i r1 name hname hcolon
        split at h
        · simp at h
        · rename_i r2 val hparse
          have hv : val.allDistinct := hp _ _ _ _ _ hparse (by simp [Json_Value.allDistinct])
          have ho1 := Json_objectSet_allDistinct out name val ho hv
          split at h
          · exact ih _ _ h ho1
          · simp only [Option.some.injEq, Prod.mk.injEq] at h
            rw [← h.2]
            exact ho1
    · simp only [Option.some.injEq, Prod.mk.injEq] at h
      rw [← h.2]
      exact ho

theorem Json_parseStr_allDistinct (L : Libc) (fuel buf_sz : Nat) (buffer : List Nat)
    (out : Json_Value) (r : Nat) (v : Json_Value)
    (h : Json_parseStr L fuel buf_sz buffer out = some (r, v)) (ho : out.allDistinct) :
    v.allDistinct := by
  induction fuel generalizing buf_sz buffer out r v with
  | zero => simp [Json_parseStr] at h
  | succ fuel ih =>
    unfold Json_parseStr at h
    simp only at h
    have hnull : Json_Value.null.allDistinct := by simp [Json_Value.allDistinct]
    split at h
    · simp only [Option.some.injEq, Prod.mk.injEq] at h
      rw [← h.2]; exact ho
    · split at h
      · simp only [Option.some.injEq, Prod.mk.injEq] at h
        rw [← h.2]; exact hnull
      · split at h
        · split at h <;>
          · simp only [Option.some.injEq, Prod.mk.injEq] at h
            rw [← h.2]; simp [Json_Value.allDistinct]
        · split at h
          · (repeat' split at h) <;>
            · simp only [Option.some.injEq, Prod.mk.injEq] at h
              rw [← h.2]; simp [Json_Value.allDistinct]
          · split at h
            · (repeat' split at h) <;>
              · simp only [Option.some.injEq, Prod.mk.injEq] at h
                rw [← h.2]; simp [Json_Value.allDistinct]
            · split at h
              · (repeat' split at h) <;>
                · simp only [Option.some.injEq, Prod.mk.injEq] at h
                  rw [← h.2]; simp [Json_Value.allDistinct]
              · split at h
                · simp only [Option.some.injEq, Prod.mk.injEq] at h
                  rw [← h.2]; simp [Json_Value.allDistinct]
                · split at h
                  · split at h
                    · simp at h
                    · rename_i ret1 out1 hloop
                      simp only [Option.some.injEq, Prod.mk.injEq] at h
                      rw [← h.2]
                      exact parseArrayLoop_allDistinct _ (fun sz buf o r v => ih sz buf o r v)
                        _ _ _ _ _ _ _ hloop (by simp [Json_Value.allDistinct, allDistinctList])
                  · split at h
                    · split at h
                      · simp at h
                      · rename_i ret1 out1 hloop
                        simp only [Option.some.injEq, Prod.mk.injEq] at h
                        rw [← h.2]
                        exact parseObjectLoop_allDistinct _
                          (fun sz buf o r v => ih sz buf o r v) _ _ _ _ _ _ _ hloop
                          (by
                            simp only [Json_Value.allDistinct, allDistinctList, and_true]
                            intro i hi
                            omega)
                    · simp only [Option.some.injEq, Prod.mk.injEq] at h
                      rw [← h.2]; exact hnull

/-! ## The claims on the invariant and on the round trip -/

/-- C3: at most one entry per name is an invariant. `Json_objectSet` (with any field and
value) and `Json_objectDelete` keep the live names of an Object pairwise distinct under
`Json_stringCmp`; hence every Object built from an empty Object by these two calls has
pairwise distinct names, and so has every Object, at any depth, of a value that
`Json_parseStr` returns. -/
theorem at_most_one_entry_per_name :
    (∀ o field src, o.distinctNames → (Json_objectSet o field src).distinctNames) ∧
    (∀ o field, o.lenInRange → o.distinctNames → (Json_objectDelete o field).distinctNames) ∧
    (∀ o, Built o → o.distinctNames) ∧
    (∀ L fuel buf_sz buffer out ret v,
      Json_parseStr L fuel buf_sz buffer out = some (ret, v) → out.allDistinct →
      v.allDistinct) :=
  ⟨Json_objectSet_distinct, Json_objectDelete_distinct, fun o h => (Built_invariant o h).2,
    Json_parseStr_allDistinct⟩

/-- Instances of C3: a set of a new name and a delete of a present name. -/
theorem at_most_one_entry_per_name_witness :
    (Json_objectSet (.object 1 128 [JSON_STRLIT (ascii "a")] [.null]) (JSON_STRLIT (ascii "b"))
      (.boolean 1)).distinctNames ∧
    (Json_objectDelete (.object 2 128 [JSON_STRLIT (ascii "a"), JSON_STRLIT (ascii "b")]
      [.null, .null]) (JSON_STRLIT (ascii "a"))).distinctNames :=
  ⟨at_most_one_entry_per_name.1 _ _ _ (by decide),
    at_most_one_entry_per_name.2.1 _ _ (by simp [Json_Value.lenInRange, SIZE_MOD]) (by decide)⟩

/-- C1 (the code at the failing input): for the empty Array `Json_printValue` emits the text
`[`, newline, `]`, newline, and `Json_parseStr` on that text (with the length of the text, or
one more as `Json_parseFile` passes it) yields an Array of length 1 holding a Null. -/
theorem roundtrip_empty_array (L : Libc) (fuel : Nat) :
    Json_printValue L (.array 0 0 []) = [0x5b, 10, 0x5d, 10] ∧
    Json_parseStr L (fuel + 2) 4 (Json_printValue L (.array 0 0 [])) .null
      = some (4, .array 1 128 [.null]) ∧
    Json_parseStr L (fuel + 2) 5 (Json_printValue L (.array 0 0 [])) .null
      = some (4, .array 1 128 [.null]) := by
  have h : Json_printValue L (.array 0 0 []) = [0x5b, 10, 0x5d, 10] := rfl
  rw [h]
  exact ⟨rfl, rfl, rfl⟩

/-! ## The order of `Json_stringCmp` -/

theorem memcmp_antisymm (a b : List Nat) (n : Nat) : memcmp a b n = - memcmp b a n := by
  induction n generalizing a b with
  | zero => simp [memcmp]
  | succ n ih =>
    unfold memcmp
    by_cases h : a.headD 0 = b.headD 0
    · rw [if_pos h, if_pos h.symm]
      exact ih a.tail b.tail
    · rw [if_neg h, if_neg (fun h1 => h h1.symm)]
      omega

theorem memcmp_first_diff (a b : List Nat) (n k : Nat) (hk : k < n)
    (heq : ∀ j, j < k → a.getD j 0 = b.getD j 0) (hne : a.getD k 0 ≠ b.getD k 0) :
    memcmp a b n = (a.getD k 0 : Int) - (b.getD k 0 : Int) := by
  induction n generalizing a b k with
  | zero => omega
  | succ n ih =>
    unfold memcmp
    cases k with
    | zero =>
      rw [getD_zero_headD, getD_zero_headD] at hne
      rw [if_neg hne, getD_zero_headD, getD_zero_headD]
    | succ k =>
      have h0 := heq 0 (by omega)
      rw [getD_zero_headD, getD_zero_headD] at h0
      rw [if_pos h0, getD_succ_tail, getD_succ_tail]
      apply ih a.tail b.tail k (by omega)
      · intro j hj
        rw [← getD_succ_tail, ← getD_succ_tail]
        exact heq (j + 1) (by omega)
      · rw [← getD_succ_tail, ← getD_succ_tail]
        exact hne

theorem Json_stringCmp_present (a b : Json_String) (da db : List Nat)
    (ha : a.data = some da) (hb : b.data = some db) :
    Json_stringCmp a b =
      (if memcmp da db (if a.len < b.len then a.len else b.len) = 0 then
        (if a.len < b.len then -1 else if a.len > b.len then 1 else 0)
      else memcmp da db (if a.len < b.len then a.len else b.len)) := by
  unfold Json_stringCmp
  rw [ha, hb]

theorem Json_stringCmp_antisymm (a b : Json_String) :
    Json_stringCmp a b = - Json_stringCmp b a := by
  rcases ha : a.data with _ | da <;> rcases hb : b.data with _ | db
  · simp [Json_stringCmp, ha, hb]
  · simp [Json_stringCmp, ha, hb]
  · simp [Json_stringCmp, ha, hb]
  · rw [Json_stringCmp_present a b da db ha hb, Json_stringCmp_present b a db da hb ha]
    have hmin : (if a.len < b.len then a.len else b.len)
        = (if b.len < a.len then b.len else a.len) := by
      split <;> split <;> omega
    rw [hmin, memcmp_antisymm da db]
    by_cases hm : memcmp db da (if b.len < a.len then b.len else a.len) = 0
    · rw [if_pos hm, if_pos (by omega)]
      rcases Nat.lt_trichotomy a.len b.len with h | h | h
      · rw [if_pos h, if_neg (show ¬ b.len < a.len by omega),
          if_pos (show b.len > a.len by omega)]
      · rw [if_neg (show ¬ a.len < b.len by omega), if_neg (show ¬ a.len > b.len by omega),
          if_neg (show ¬ b.len < a.len by omega), if_neg (show ¬ b.len > a.len by omega)]
        rfl
      · rw [if_neg (show ¬ a.len < b.len by omega), if_pos (show a.len > b.len by omega),
          if_pos (show b.len < a.len by omega)]
        rfl
    · rw [if_neg hm, if_neg (by omega)]

/-- C16: `Json_stringCmp` orders strings byte-wise with absent first. It returns 0 for two
absent strings, a negative value when only the first is absent, a positive value when only
the second is. For two present strings it returns 0 exactly when the lengths are equal and
the first `len` bytes agree; its sign is the sign of the difference of the first pair of
differing bytes within the shorter length; when the bytes agree on the shorter length it is
negative if the first string is the shorter and positive if it is the longer. Swapping the
arguments negates the sign. -/
theorem Json_stringCmp_order :
    (∀ a b : Json_String, a.data = none → b.data = none → Json_stringCmp a b = 0) ∧
    (∀ a b : Json_String, a.data = none → b.data ≠ none → Json_stringCmp a b < 0) ∧
    (∀ a b : Json_String, a.data ≠ none → b.data = none → Json_stringCmp a b > 0) ∧
    (∀ (a b : Json_String) (da db : List Nat), a.data = some da → b.data = some db →
      (Json_stringCmp a b = 0 ↔
        a.len = b.len ∧ ∀ k, k < a.len → da.getD k 0 = db.getD k 0) ∧
      (∀ k, k < a.len → k < b.len → (∀ j, j < k → da.getD j 0 = db.getD j 0) →
        da.getD k 0 ≠ db.getD k 0 →
        Int.sign (Json_stringCmp a b) = Int.sign ((da.getD k 0 : Int) - (db.getD k 0 : Int))) ∧
      ((∀ k, k < a.len → k < b.len → da.getD k 0 = db.getD k 0) → a.len < b.len →
        Json_stringCmp a b < 0) ∧
      ((∀ k, k < a.len → k < b.len → da.getD k 0 = db.getD k 0) → a.len > b.len →
        Json_stringCmp a b > 0)) ∧
    (∀ a b : Json_String,
      Int.sign (Json_stringCmp a b) = - Int.sign (Json_stringCmp b a)) := by
  refine ⟨?_, ?_, ?_, ?_, ?_⟩
  · intro a b ha hb
    simp [Json_stringCmp, ha, hb]
  · intro a b ha hb
    rcases hd : b.data with _ | db
    · exact absurd hd hb
    · simp [Json_stringCmp, ha, hd]
  · intro a b ha hb
    rcases hd : a.data with _ | da
    · exact absurd hd ha
    · simp [Json_stringCmp, hb, hd]
  · intro a b da db ha hb
    refine ⟨?_, ?_, ?_, ?_⟩
    · rw [Json_stringCmp_eq_zero_iff]
      constructor
      · rintro (⟨h1, _⟩ | ⟨da1, db1, h1, h2, hlen, hk⟩)
        · rw [ha] at h1; cases h1
        · rw [ha] at h1; rw [hb] at h2
          cases h1; cases h2
          exact ⟨hlen, hk⟩
      · rintro ⟨hlen, hk⟩
        exact Or.inr ⟨da, db, ha, hb, hlen, hk⟩
    · intro k hka hkb heq hne
      rw [Json_stringCmp_present a b da db ha hb]
      have hm := memcmp_first_diff da db (if a.len < b.len then a.len else b.len) k
        (by split <;> omega) heq hne
      have hnz : (da.getD k 0 : Int) - (db.getD k 0 : Int) ≠ 0 := by omega
      rw [hm, if_neg hnz]
    · intro heq hlt
      rw [Json_stringCmp_present a b da db ha hb]
      have hm : memcmp da db (if a.len < b.len then a.len else b.len) = 0 := by
        rw [memcmp_eq_zero_iff, if_pos hlt]
        intro k hk
        exact heq k hk (by omega)
      rw [if_pos hm, if_pos hlt]
      omega
    · intro heq hgt
      rw [Json_stringCmp_present a b da db ha hb]
      have hm : memcmp da db (if a.len < b.len then a.len else b.len) = 0 := by
        rw [memcmp_eq_zero_iff, if_neg (by omega)]
        intro k hk
        exact heq k (by omega) hk
      rw [if_pos hm, if_neg (by omega), if_pos hgt]
      omega
  · intro a b
    rw [Json_stringCmp_antisymm a b, Int.sign_neg]

/-- Instances of C16 on the strings "ab" and "abc", and on an absent string. -/
theorem Json_stringCmp_order_witness :
    Json_stringCmp (JSON_STRLIT (ascii "ab")) (JSON_STRLIT (ascii "abc")) < 0 ∧
    Json_stringCmp Json_String.zero (JSON_STRLIT (ascii "ab")) < 0 :=
  ⟨(Json_stringCmp_order.2.2.2.1 (JSON_STRLIT (ascii "ab")) (JSON_STRLIT (ascii "abc"))
      (ascii "ab" ++ [0]) (ascii "abc" ++ [0]) rfl rfl).2.2.1 (by decide) (by decide),
    Json_stringCmp_order.2.1 Json_String.zero (JSON_STRLIT (ascii "ab")) rfl (by decide)⟩

/-! ## Numbers read as strings, and non-finite numbers -/

/-- C11 (the code at the failing inputs): on a field holding a Number, `Json_objectGetStr`
returns a string of the length of the `%.16g` rendering whose last byte is NUL in place of
the last byte of the rendering: `snprintf(data, len, ...)` stores `len - 1` bytes and the
terminator. With a C library that renders 1 as `1` and 12 as `12`, the number 1 gives the
one-byte string holding NUL and the number 12 gives the two bytes `1`, NUL. -/
theorem Json_objectGetStr_number_truncated :
    (∀ (L : Libc) o field fallback x, Json_objectGet o field = some (.number x) →
      L.fmt_g16 x ≠ [] →
      (Json_objectGetStr L o field fallback).len = (L.fmt_g16 x).length ∧
      (Json_objectGetStr L o field fallback).data = some ((L.fmt_g16 x).dropLast ++ [0])) ∧
    (∀ L : Libc, L.fmt_g16 (.fin 1) = ascii "1" →
      Json_objectGetStr L (.object 1 128 [JSON_STRLIT (ascii "a")] [.number (.fin 1)])
        (JSON_STRLIT (ascii "a")) Json_String.zero = ⟨true, 1, some [0]⟩) ∧
    (∀ L : Libc, L.fmt_g16 (.fin 12) = ascii "12" →
      Json_objectGetStr L (.object 1 128 [JSON_STRLIT (ascii "a")] [.number (.fin 12)])
        (JSON_STRLIT (ascii "a")) Json_String.zero = ⟨true, 2, some [0x31, 0]⟩) ∧
    Json_objectGetStr intLibc (.object 1 128 [JSON_STRLIT (ascii "a")] [.number (.fin 1)])
      (JSON_STRLIT (ascii "a")) Json_String.zero = ⟨true, 1, some [0]⟩ := by
  refine ⟨?_, ?_, ?_, by decide⟩
  · intro L o field fallback x h hne
    have hlen : (L.fmt_g16 x).length ≠ 0 := by
      intro h0
      exact hne (List.length_eq_zero.mp h0)
    simp only [Json_objectGetStr, h]
    rw [if_neg hlen, List.dropLast_eq_take]
    exact ⟨trivial, rfl⟩
  · intro L h
    have hg : Json_objectGet (.object 1 128 [JSON_STRLIT (ascii "a")] [.number (.fin 1)])
        (JSON_STRLIT (ascii "a")) = some (.number (.fin 1)) := rfl
    simp only [Json_objectGetStr, hg, h]
    decide
  · intro L h
    have hg : Json_objectGet (.object 1 128 [JSON_STRLIT (ascii "a")] [.number (.fin 12)])
        (JSON_STRLIT (ascii "a")) = some (.number (.fin 12)) := rfl
    simp only [Json_objectGetStr, hg, h]
    decide

/-- C12: for a Number `x` that is an infinity or a NaN of either sign, `Json_printValue`
emits the quoted name of `x` (`Infinity`, `-Infinity`, `NaN`, `-NaN`) and a newline;
`Json_parseStr` on that text consumes all of it and yields a heap String with exactly the
bytes of the name; and `Json_objectGetNum` on a field holding that String returns `x`, the
number of the same kind and sign. -/
theorem nonfinite_roundtrip (L : Libc) (x : Json_Number) (fuel : Nat)
    (hx : isinf x = true ∨ isnan x = true) :
    Json_printValue L (.number x) = [0x22] ++ nonFiniteName x ++ [0x22, 10] ∧
    Json_parseStr L (fuel + 1) (Json_printValue L (.number x)).length
        (Json_printValue L (.number x)) .null
      = some ((Json_printValue L (.number x)).length,
          .string ⟨true, (nonFiniteName x).length, some (nonFiniteName x)⟩) ∧
    (∀ o field fallback,
      Json_objectGet o field
        = some (.string ⟨true, (nonFiniteName x).length, some (nonFiniteName x)⟩) →
      Json_objectGetNum o field fallback = x) := by
  rcases x with q | neg | neg
  · simp [isinf, isnan] at hx
  · cases neg
    · have hp : Json_printValue L (.number (.inf false))
          = [0x22] ++ nonFiniteName (.inf false) ++ [0x22, 10] := rfl
      refine ⟨hp, ?_, ?_⟩
      · rw [hp]; rfl
      · intro o field fallback h
        simp only [Json_objectGetNum, h]
        rw [if_pos (by decide)]
    · have hp : Json_printValue L (.number (.inf true))
          = [0x22] ++ nonFiniteName (.inf true) ++ [0x22, 10] := rfl
      refine ⟨hp, ?_, ?_⟩
      · rw [hp]; rfl
      · intro o field fallback h
        simp only [Json_objectGetNum, h]
        rw [if_neg (by decide), if_pos (by decide)]
  · cases neg
    · have hp : Json_printValue L (.number (.nan false))
          = [0x22] ++ nonFiniteName (.nan false) ++ [0x22, 10] := rfl
      refine ⟨hp, ?_, ?_⟩
      · rw [hp]; rfl
      · intro o field fallback h
        simp only [Json_objectGetNum, h]
        rw [if_neg (by decide), if_neg (by decide), if_pos (by decide)]
    · have hp : Json_printValue L (.number (.nan true))
          = [0x22] ++ nonFiniteName (.nan true) ++ [0x22, 10] := rfl
      refine ⟨hp, ?_, ?_⟩
      · rw [hp]; rfl
      · intro o field fallback h
        simp only [Json_objectGetNum, h]
        rw [if_neg (by decide), if_neg (by decide), if_neg (by decide), if_pos (by decide)]

/-- An instance of C12: negative infinity. -/
theorem nonfinite_roundtrip_witness :
    Json_printValue intLibc (.number (.inf true))
      = [0x22] ++ nonFiniteName (.inf true) ++ [0x22, 10] ∧
    Json_parseStr intLibc (0 + 1) (Json_printValue intLibc (.number (.inf true))).length
        (Json_printValue intLibc (.number (.inf true))) .null
      = some ((Json_printValue intLibc (.number (.inf true))).length,
          .string ⟨true, (nonFiniteName (.inf true)).length, some (nonFiniteName (.inf true))⟩) ∧
    (∀ o field fallback,
      Json_objectGet o field
        = some (.string ⟨true, (nonFiniteName (.inf true)).length,
            some (nonFiniteName (.inf true))⟩) →
      Json_objectGetNum o field fallback = .inf true) :=
  nonfinite_roundtrip intLibc (.inf true) 0 (Or.inl rfl)

/-! ## The parser on literals, escapes and arrays -/

/-- C17 (the code at the failing inputs): without leading whitespace the literals `true`,
`false` and `null` are parsed and 4, 5 and 4 bytes consumed; but after one or two whitespace
bytes the literal is not recognised, because `memcmp(buffer, "true", 4)` compares from the
start of the buffer instead of the position reached: two blanks and `true` yield a Null and
the count 2, a blank and `false` yield a Null and the count 1, a newline and `null` yield
the count 1. -/
theorem literal_after_whitespace (L : Libc) (fuel : Nat) :
    Json_parseStr L (fuel + 1) 4 (ascii "true") .null = some (4, .boolean JSON_TRUE) ∧
    Json_parseStr L (fuel + 1) 5 (ascii "false") .null = some (5, .boolean JSON_FALSE) ∧
    Json_parseStr L (fuel + 1) 4 (ascii "null") .null = some (4, .null) ∧
    Json_parseStr L (fuel + 1) 6 (ascii "  true") .null = some (2, .null) ∧
    Json_parseStr L (fuel + 1) 6 (ascii " false") .null = some (1, .null) ∧
    Json_parseStr L (fuel + 1) 5 ([10] ++ ascii "null") .null = some (1, .null) :=
  ⟨rfl, rfl, rfl, rfl, rfl, rfl⟩

/-! ### Unfolding the parser -/

theorem parseStringLoop_end (L : Libc) (buffer : List Nat) (buf_sz fuel i : Nat)
    (data : Option (List Nat)) (hi : ¬ i < buf_sz) :
    parseStringLoop L buffer buf_sz fuel i data = (i, data) := by
  cases fuel with
  | zero => rfl
  | succ fuel => rw [parseStringLoop, if_neg hi]

theorem parseStringLoop_quote (L : Libc) (buffer : List Nat) (buf_sz fuel i : Nat)
    (data : Option (List Nat)) (hq : buffer.getD i 0 = 0x22) :
    parseStringLoop L buffer buf_sz fuel i data = (i, data) := by
  cases fuel with
  | zero => rfl
  | succ fuel =>
    rw [parseStringLoop]
    by_cases hi : i < buf_sz
    · rw [if_pos hi, if_pos hq]
    · rw [if_neg hi]

theorem parseStringLoop_plain (L : Libc) (buffer : List Nat) (buf_sz fuel i : Nat)
    (data : Option (List Nat)) (hi : i < buf_sz) (hq : buffer.getD i 0 ≠ 0x22)
    (hb : buffer.getD i 0 ≠ 0x5c) (hle : buffer.getD i 0 ≤ 0x7f) :
    parseStringLoop L buffer buf_sz (fuel + 1) i data
      = parseStringLoop L buffer buf_sz fuel (i + 1)
          (some (data.getD [] ++ [buffer.getD i 0])) := by
  rw [parseStringLoop, if_pos hi, if_neg hq]
  simp only
  rw [if_neg hb]
  have hc : copyRaw buffer i = ([buffer.getD i 0], i) := by
    unfold copyRaw
    simp only
    rw [if_pos hle]
  rw [hc]

theorem parseStringLoop_escape_u (L : Libc) (buffer : List Nat) (buf_sz fuel i : Nat)
    (data : Option (List Nat)) (hi : i < buf_sz) (hb : buffer.getD i 0 = 0x5c)
    (hu : buffer.getD (i + 1) 0 = 0x75) :
    parseStringLoop L buffer buf_sz (fuel + 1) i data
      = parseStringLoop L buffer buf_sz fuel ((parseEscapeU L buffer (i + 1)).2 + 1)
          (some (data.getD [] ++ (parseEscapeU L buffer (i + 1)).1)) := by
  rw [parseStringLoop, if_pos hi, if_neg (by rw [hb]; decide)]
  simp only
  rw [if_pos hb, hu]
  rfl

theorem parseArrayLoop_succ (parse : Nat → List Nat → Json_Value → Option (Nat × Json_Value))
    (buffer : List Nat) (buf_sz fuel ret : Nat) (out : Json_Value) :
    parseArrayLoop parse buffer buf_sz (fuel + 1) ret out
      = match parse (size_sub buf_sz (skipSpace buffer buf_sz ret))
          (buffer.drop (skipSpace buffer buf_sz ret)) .null with
        | none => none
        | some (r, elem) =>
          if buffer.getD (skipSpace buffer buf_sz ret + r) 0 = 0x2c then
            parseArrayLoop parse buffer buf_sz fuel (skipSpace buffer buf_sz ret + r + 1)
              (Json_arrayAppend out elem)
          else some (skipSpace buffer buf_sz ret + r + 1, Json_arrayAppend out elem) := by
  rw [parseArrayLoop]

/-- The dispatch of `Json_parseStr` on the byte `c` that follows the leading whitespace. -/
theorem Json_parseStr_number (L : Libc) (fuel buf_sz : Nat) (buffer : List Nat)
    (out : Json_Value) (ret : Nat) (hsz : buf_sz ≠ 0)
    (hsk : skipLeadingSpace buffer buf_sz buf_sz 0 = some ret)
    (hd : isdigit (buffer.getD ret 0) = true) :
    Json_parseStr L (fuel + 1) buf_sz buffer out
      = match L.scan_lf (cstr (buffer.drop ret)) with
        | none => some (ret, .number (.fin 0))
        | some (x, tmp) => some (ret + tmp, .number x) := by
  rw [Json_parseStr, if_neg hsz]
  simp only [hsk]
  rw [if_pos hd]

theorem isdigit_false_of (c : Nat) (h : c < 48 ∨ 57 < c) : ¬ isdigit c = true := by
  unfold isdigit
  rw [decide_eq_true_eq]
  omega

theorem Json_parseStr_string (L : Libc) (fuel buf_sz : Nat) (buffer : List Nat)
    (out : Json_Value) (ret : Nat) (hsz : buf_sz ≠ 0)
    (hsk : skipLeadingSpace buffer buf_sz buf_sz 0 = some ret)
    (hc : buffer.getD ret 0 = 0x22) :
    Json_parseStr L (fuel + 1) buf_sz buffer out
      = some (skipSpace buffer buf_sz ((parseStringLoop L buffer buf_sz buf_sz (ret + 1) none).1 + 1),
          .string ⟨true, ((parseStringLoop L buffer buf_sz buf_sz (ret + 1) none).2.getD []).length,
            (parseStringLoop L buffer buf_sz buf_sz (ret + 1) none).2⟩) := by
  rw [Json_parseStr, if_neg hsz]
  simp only [hsk, hc]
  rw [if_neg (by decide), if_neg (by decide), if_neg (by decide), if_neg (by decide),
    if_pos (by decide)]

theorem Json_parseStr_array (L : Libc) (fuel buf_sz : Nat) (buffer : List Nat)
    (out : Json_Value) (ret : Nat) (hsz : buf_sz ≠ 0)
    (hsk : skipLeadingSpace buffer buf_sz buf_sz 0 = some ret)
    (hc : buffer.getD ret 0 = 0x5b) :
    Json_parseStr L (fuel + 1) buf_sz buffer out
      = match parseArrayLoop (Json_parseStr L fuel) buffer buf_sz fuel (ret + 1)
          (.array 0 0 []) with
        | none => none
        | some (ret1, out1) =>
          some (skipSpace buffer buf_sz (skipSpace buffer buf_sz ret1), out1) := by
  rw [Json_parseStr, if_neg hsz]
  simp only [hsk, hc]
  rw [if_neg (by decide), if_neg (by decide), if_neg (by decide), if_neg (by decide),
    if_neg (by decide), if_pos (by decide)]

/-- C18 (the code at the failing input): on the nine bytes of the literal that holds the
escape of U+0041 followed by `B`, with a C library whose `%4hx` converts `0041` to 0x41 in
four bytes, `Json_parseStr` yields the one-byte String `A`: after the escape `i += n + m`
leaves `i` on the `B` and the `continue` steps over it. A short escape keeps the byte that
follows it: the escape of the newline followed by `B` yields the bytes 10, `B`. -/
theorem escape_u_drops_next_byte :
    (∀ (L : Libc) (fuel : Nat),
      L.scan_hx4 [0x30, 0x30, 0x34, 0x31, 0x42, 0x22] = some (0x41, 4) →
      Json_parseStr L (fuel + 1) 9 [0x22, 0x5c, 0x75, 0x30, 0x30, 0x34, 0x31, 0x42, 0x22] .null
        = some (9, .string ⟨true, 1, some [0x41]⟩)) ∧
    Json_parseStr intLibc 1 9 [0x22, 0x5c, 0x75, 0x30, 0x30, 0x34, 0x31, 0x42, 0x22] .null
      = some (9, .string ⟨true, 1, some [0x41]⟩) ∧
    (∀ (L : Libc) (fuel : Nat),
      Json_parseStr L (fuel + 1) 5 [0x22, 0x5c, 0x6e, 0x42, 0x22] .null
        = some (5, .string ⟨true, 2, some [10, 0x42]⟩)) := by
  refine ⟨?_, rfl, fun _ _ => rfl⟩
  intro L fuel h
  have hs : sscanf_u_hx L (cstr (List.drop 2
      [0x22, 0x5c, 0x75, 0x30, 0x30, 0x34, 0x31, 0x42, 0x22])) = some (0x41, 5) := by
    have hc : cstr (List.drop 2 [0x22, 0x5c, 0x75, 0x30, 0x30, 0x34, 0x31, 0x42, 0x22])
        = 0x75 :: [0x30, 0x30, 0x34, 0x31, 0x42, 0x22] := rfl
    rw [hc]
    simp only [sscanf_u_hx, h]
  have he : parseEscapeU L [0x22, 0x5c, 0x75, 0x30, 0x30, 0x34, 0x31, 0x42, 0x22] (1 + 1)
      = ([0x41], 7) := by
    unfold parseEscapeU
    rw [hs]
    rfl
  have hl : parseStringLoop L [0x22, 0x5c, 0x75, 0x30, 0x30, 0x34, 0x31, 0x42, 0x22] 9 9
      (0 + 1) none = (8, some [0x41]) := by
    rw [parseStringLoop_escape_u L [0x22, 0x5c, 0x75, 0x30, 0x30, 0x34, 0x31, 0x42, 0x22] 9 8
      (0 + 1) none (by decide) rfl rfl, he]
    exact parseStringLoop_quote L [0x22, 0x5c, 0x75, 0x30, 0x30, 0x34, 0x31, 0x42, 0x22] 9 8 8 _ rfl
  rw [Json_parseStr_string L fuel 9 [0x22, 0x5c, 0x75, 0x30, 0x30, 0x34, 0x31, 0x42, 0x22] .null 0
    (by decide) rfl rfl, hl]
  rfl

/-- C19 (the code at the failing input): on `[1 , 2]`, with a C library whose `%lf` converts
the leading `1` in one byte, `Json_parseStr` yields an Array of length 1 holding the Number 1
and the count 3: the number case returns without skipping the blank, and the loop test
`buffer[ret++] == ','` then sees the blank. -/
theorem array_blank_before_comma :
    (∀ (L : Libc) (fuel : Nat),
      L.scan_lf (ascii "1 , 2]") = some (.fin 1, 1) →
      Json_parseStr L (fuel + 1 + 1) 7 (ascii "[1 , 2]") .null
        = some (3, .array 1 128 [.number (.fin 1)])) ∧
    Json_parseStr intLibc 2 7 (ascii "[1 , 2]") .null
      = some (3, .array 1 128 [.number (.fin 1)]) := by
  refine ⟨?_, rfl⟩
  intro L fuel h
  have hin : Json_parseStr L (fuel + 1) (size_sub 7 (skipSpace (ascii "[1 , 2]") 7 (0 + 1)))
      (List.drop (skipSpace (ascii "[1 , 2]") 7 (0 + 1)) (ascii "[1 , 2]")) .null
      = some (1, .number (.fin 1)) := by
    have hd : List.drop (skipSpace (ascii "[1 , 2]") 7 (0 + 1)) (ascii "[1 , 2]")
        = ascii "1 , 2]" := rfl
    have hsz : size_sub 7 (skipSpace (ascii "[1 , 2]") 7 (0 + 1)) = 6 := rfl
    rw [hd, hsz, Json_parseStr_number L fuel 6 (ascii "1 , 2]") .null 0 (by decide) rfl rfl]
    have hc : cstr (List.drop 0 (ascii "1 , 2]")) = ascii "1 , 2]" := rfl
    rw [hc, h]
  rw [Json_parseStr_array L (fuel + 1) 7 (ascii "[1 , 2]") .null 0 (by decide) rfl rfl,
    parseArrayLoop_succ, hin]
  rfl

/-! ## Bit operations as arithmetic -/

theorem and_255 (x : Nat) : x &&& 255 = x % 256 := Nat.and_pow_two_sub_one_eq_mod x 8

theorem and_63 (x : Nat) : x &&& 63 = x % 64 := Nat.and_pow_two_sub_one_eq_mod x 6

theorem and_31 (x : Nat) : x &&& 31 = x % 32 := Nat.and_pow_two_sub_one_eq_mod x 5

theorem and_15 (x : Nat) : x &&& 15 = x % 16 := Nat.and_pow_two_sub_one_eq_mod x 4

theorem and_7 (x : Nat) : x &&& 7 = x % 8 := Nat.and_pow_two_sub_one_eq_mod x 3

theorem and_1023 (x : Nat) : x &&& 1023 = x % 1024 := Nat.and_pow_two_sub_one_eq_mod x 10

theorem shr_3 (x : Nat) : x >>> 3 = x / 8 := Nat.shiftRight_eq_div_pow x 3

theorem shr_4 (x : Nat) : x >>> 4 = x / 16 := Nat.shiftRight_eq_div_pow x 4

theorem shr_5 (x : Nat) : x >>> 5 = x / 32 := Nat.shiftRight_eq_div_pow x 5

theorem shr_6 (x : Nat) : x >>> 6 = x / 64 := Nat.shiftRight_eq_div_pow x 6

theorem shr_10 (x : Nat) : x >>> 10 = x / 1024 := Nat.shiftRight_eq_div_pow x 10

theorem shr_12 (x : Nat) : x >>> 12 = x / 4096 := Nat.shiftRight_eq_div_pow x 12

theorem shr_18 (x : Nat) : x >>> 18 = x / 262144 := Nat.shiftRight_eq_div_pow x 18

theorem shl_6_or (a b : Nat) (h : b < 64) : (a <<< 6) ||| b = a * 64 + b := by
  have h1 := Nat.mul_add_lt_is_or (i := 6) (b := b) (by simpa using h) a
  rw [Nat.shiftLeft_eq, Nat.mul_comm]
  exact h1.symm

theorem shl_10_or (a b : Nat) (h : b < 1024) : (a <<< 10) ||| b = a * 1024 + b := by
  have h1 := Nat.mul_add_lt_is_or (i := 10) (b := b) (by simpa using h) a
  rw [Nat.shiftLeft_eq, Nat.mul_comm]
  exact h1.symm

theorem or_128 (y : Nat) (h : y < 64) : 128 ||| y = 128 + y :=
  (Nat.mul_add_lt_is_or (i := 6) (b := y) (by simpa using h) 2).symm

theorem or_192 (y : Nat) (h : y < 32) : 192 ||| y = 192 + y :=
  (Nat.mul_add_lt_is_or (i := 5) (b := y) (by simpa using h) 6).symm

theorem or_224 (y : Nat) (h : y < 16) : 224 ||| y = 224 + y :=
  (Nat.mul_add_lt_is_or (i := 4) (b := y) (by simpa using h) 14).symm

theorem or_240 (y : Nat) (h : y < 8) : 240 ||| y = 240 + y :=
  (Nat.mul_add_lt_is_or (i := 3) (b := y) (by simpa using h) 30).symm

theorem hexDigitsAux_lt_16 (fuel n : Nat) (acc : List Nat) (h : n < 16) :
    hexDigitsAux (fuel + 1) n acc = hexDigit n :: acc := by
  rw [hexDigitsAux, if_pos h]

theorem hexDigitsAux_ge_16 (fuel n : Nat) (acc : List Nat) (h : ¬ n < 16) :
    hexDigitsAux (fuel + 1) n acc = hexDigitsAux fuel (n / 16) (hexDigit (n % 16) :: acc) := by
  rw [hexDigitsAux, if_neg h]

/-- The text of `%.4x` for a number below 65536 is its four hexadecimal digits. -/
theorem fmt_04x_eq_hex4 (n : Nat) (h : n < 65536) : fmt_04x n = hex4 n := by
  have z : hexDigit 0 = 48 := rfl
  unfold fmt_04x hex4
  simp only
  by_cases h1 : n < 16
  · rw [hexDigitsAux_lt_16 _ _ _ h1]
    have e1 : n / 4096 % 16 = 0 := by omega
    have e2 : n / 256 % 16 = 0 := by omega
    have e3 : n / 16 % 16 = 0 := by omega
    have e4 : n % 16 = n := by omega
    rw [e1, e2, e3, e4, z]
    rfl
  · rw [hexDigitsAux_ge_16 _ _ _ h1]
    by_cases h2 : n / 16 < 16
    · rw [hexDigitsAux_lt_16 _ _ _ h2]
      have e1 : n / 4096 % 16 = 0 := by omega
      have e2 : n / 256 % 16 = 0 := by omega
      have e3 : n / 16 % 16 = n / 16 := by omega
      rw [e1, e2, e3, z]
      rfl
    · rw [hexDigitsAux_ge_16 _ _ _ h2]
      by_cases h3 : n / 16 / 16 < 16
      · rw [hexDigitsAux_lt_16 _ _ _ h3]
        have e1 : n / 4096 % 16 = 0 := by omega
        have e2 : n / 256 % 16 = n / 16 / 16 := by omega
        rw [e1, e2, z]
        rfl
      · rw [hexDigitsAux_ge_16 _ _ _ h3]
        have h4 : n / 16 / 16 / 16 < 16 := by omega
        rw [hexDigitsAux_lt_16 _ _ _ h4]
        have e1 : n / 4096 % 16 = n / 16 / 16 / 16 := by omega
        have e2 : n / 256 % 16 = n / 16 / 16 % 16 := by omega
        rw [e1, e2]
        rfl

/-! ## Unfolding the printer of strings -/

theorem printStringLoop_done (data : List Nat) (len fuel i : Nat) (h : ¬ i < len) :
    printStringLoop data len fuel i = [] := by
  cases fuel with
  | zero => rfl
  | succ fuel => rw [printStringLoop, if_neg h]

/-- A byte above 0x7f that is no lead byte of the forms the printer tests for is printed as
the replacement escape. -/
theorem printStringLoop_fffd (data : List Nat) (len fuel i : Nat) (hi : i < len)
    (hb : data.getD i 0 < 256) (h1 : 0x7f < data.getD i 0) (h5 : data.getD i 0 / 32 ≠ 6)
    (h4 : data.getD i 0 / 16 ≠ 12) (h3 : data.getD i 0 / 8 ≠ 30) :
    printStringLoop data len (fuel + 1) i
      = [0x5c, 0x75, 0x66, 0x66, 0x66, 0x64] ++ printStringLoop data len fuel (i + 1) := by
  rw [printStringLoop, if_pos hi]
  simp only [and_255, Nat.mod_eq_of_lt hb, shr_5, shr_4, shr_3]
  rw [if_neg (by omega), if_neg h5, if_neg h4, if_neg h3]

/-- A byte of the form `110xxxxx` is decoded with the byte that follows it. -/
theorem printStringLoop_two (data : List Nat) (len fuel i : Nat) (hi : i < len)
    (hb : data.getD i 0 < 256) (h5 : data.getD i 0 / 32 = 6) :
    printStringLoop data len (fuel + 1) i
      = [0x5c, 0x75] ++ fmt_04x (data.getD i 0 % 32 * 64 + data.getD (i + 1) 0 % 64)
          ++ printStringLoop data len fuel (i + 2) := by
  rw [printStringLoop, if_pos hi]
  simp only [and_255, Nat.mod_eq_of_lt hb, shr_5, and_31, and_63]
  rw [if_neg (by omega), if_pos h5, shl_6_or _ _ (Nat.mod_lt _ (by decide))]

/-- A byte of the form `11110xxx` is decoded with the three bytes that follow it. -/
theorem printStringLoop_four (data : List Nat) (len fuel i : Nat) (hi : i < len)
    (hb : data.getD i 0 < 256) (h3 : data.getD i 0 / 8 = 30) :
    printStringLoop data len (fuel + 1) i
      = (if ((data.getD i 0 % 8 * 64 + data.getD (i + 1) 0 % 64) * 64
              + data.getD (i + 2) 0 % 64) * 64 + data.getD (i + 3) 0 % 64 > 0x10FFFF then
          [0x5c, 0x75, 0x66, 0x66, 0x66, 0x64] ++ printStringLoop data len fuel (i + 4)
        else
          [0x5c, 0x75]
            ++ fmt_04x ((0xd800 + ((((data.getD i 0 % 8 * 64 + data.getD (i + 1) 0 % 64) * 64
              + data.getD (i + 2) 0 % 64) * 64 + data.getD (i + 3) 0 % 64
              + (SIZE_MOD - 0x10000)) % SIZE_MOD) / 1024) % 65536)
            ++ [0x5c, 0x75]
            ++ fmt_04x ((0xdc00 + ((((data.getD i 0 % 8 * 64 + data.getD (i + 1) 0 % 64) * 64
              + data.getD (i + 2) 0 % 64) * 64 + data.getD (i + 3) 0 % 64
              + (SIZE_MOD - 0x10000)) % SIZE_MOD) % 1024) % 65536)
            ++ printStringLoop data len fuel (i + 4)) := by
  rw [printStringLoop, if_pos hi]
  simp only [and_255, Nat.mod_eq_of_lt hb, shr_5, shr_4, shr_3, and_7, and_63, shr_10, and_1023]
  rw [if_neg (by omega), if_neg (by omega), if_neg (by omega), if_pos h3,
    shl_6_or _ _ (Nat.mod_lt _ (by decide)), shl_6_or _ _ (Nat.mod_lt _ (by decide)),
    shl_6_or _ _ (Nat.mod_lt _ (by decide))]

theorem Json_printValue_string (L : Libc) (s : Json_String) :
    Json_printValue L (.string s)
      = [0x22] ++ printStringLoop (s.data.getD []) s.len s.len 0 ++ [0x22, 10] := by
  simp [Json_printValue, Json__realPrintValue, printString]

/-! ## The printer on UTF-8 sequences -/

/-- C13: for a code point `c` from U+10000 to U+10FFFF, printing a String whose four bytes
are the UTF-8 encoding of `c` emits, between the quotes, the two escapes of the surrogate
pair of `c`, each with four lowercase hexadecimal digits: the high surrogate
`0xD800 + ((c - 0x10000) >> 10)` and the low surrogate `0xDC00 + ((c - 0x10000) & 0x3FF)`. -/
theorem print_four_byte_utf8 (L : Libc) (is_heap : Bool) (c : Nat) (rest : List Nat)
    (h1 : 0x10000 ≤ c) (h2 : c ≤ 0x10FFFF) :
    Json_printValue L (.string ⟨is_heap, 4, some (utf8_encode c ++ rest)⟩)
      = [0x22] ++ [0x5c, 0x75] ++ hex4 (0xD800 + ((c - 0x10000) >>> 10))
          ++ [0x5c, 0x75] ++ hex4 (0xDC00 + ((c - 0x10000) &&& 0x3FF)) ++ [0x22, 10] := by
  have he : utf8_encode c
      = [0xF0 + c / 262144, 0x80 + c / 4096 % 64, 0x80 + c / 64 % 64, 0x80 + c % 64] := by
    unfold utf8_encode
    rw [if_neg (by omega), if_neg (by omega), if_neg (by omega)]
  rw [Json_printValue_string]
  simp only [he, Option.getD_some, List.cons_append, List.nil_append]
  have g0 : (((0xF0 + c / 262144) :: (0x80 + c / 4096 % 64) :: (0x80 + c / 64 % 64)
      :: (0x80 + c % 64) :: rest).getD 0 0) = 0xF0 + c / 262144 := rfl
  have g1 : (((0xF0 + c / 262144) :: (0x80 + c / 4096 % 64) :: (0x80 + c / 64 % 64)
      :: (0x80 + c % 64) :: rest).getD (0 + 1) 0) = 0x80 + c / 4096 % 64 := rfl
  have g2 : (((0xF0 + c / 262144) :: (0x80 + c / 4096 % 64) :: (0x80 + c / 64 % 64)
      :: (0x80 + c % 64) :: rest).getD (0 + 2) 0) = 0x80 + c / 64 % 64 := rfl
  have g3 : (((0xF0 + c / 262144) :: (0x80 + c / 4096 % 64) :: (0x80 + c / 64 % 64)
      :: (0x80 + c % 64) :: rest).getD (0 + 3) 0) = 0x80 + c % 64 := rfl
  rw [printStringLoop_four _ 4 3 0 (by decide) (by rw [g0]; omega) (by rw [g0]; omega),
    g0, g1, g2, g3]
  have hcp : (((0xF0 + c / 262144) % 8 * 64 + (0x80 + c / 4096 % 64) % 64) * 64
      + (0x80 + c / 64 % 64) % 64) * 64 + (0x80 + c % 64) % 64 = c := by omega
  rw [hcp, if_neg (by omega), printStringLoop_done _ 4 3 (0 + 4) (by decide)]
  have hsub : (c + (SIZE_MOD - 0x10000)) % SIZE_MOD = c - 0x10000 := by
    simp only [SIZE_MOD]
    omega
  rw [hsub, shr_10, and_1023]
  have hhi : (0xd800 + (c - 0x10000) / 1024) % 65536 = 0xD800 + (c - 0x10000) / 1024 := by
    omega
  have hlo : (0xdc00 + (c - 0x10000) % 1024) % 65536 = 0xDC00 + (c - 0x10000) % 1024 := by
    omega
  rw [hhi, hlo, fmt_04x_eq_hex4 _ (by omega), fmt_04x_eq_hex4 _ (by omega)]
  simp

/-- The example of C13: U+1F33F, the bytes F0 9F 8C BF, is printed as the escapes of D83C
and DF3F. -/
theorem print_four_byte_utf8_witness :
    Json_printValue intLibc (.string ⟨false, 4, some (utf8_encode 0x1F33F ++ [0])⟩)
      = [0x22] ++ [0x5c, 0x75] ++ hex4 (0xD800 + ((0x1F33F - 0x10000) >>> 10))
          ++ [0x5c, 0x75] ++ hex4 (0xDC00 + ((0x1F33F - 0x10000) &&& 0x3FF)) ++ [0x22, 10] ∧
    utf8_encode 0x1F33F = [0xF0, 0x9F, 0x8C, 0xBF] ∧
    hex4 (0xD800 + ((0x1F33F - 0x10000) >>> 10)) = ascii "d83c" ∧
    hex4 (0xDC00 + ((0x1F33F - 0x10000) &&& 0x3FF)) = ascii "df3f" :=
  ⟨print_four_byte_utf8 intLibc false 0x1F33F [0] (by decide) (by decide),
    by decide, by decide, by decide⟩

/-- C20 (the code at the failing inputs): a two-byte sequence (U+0080 to U+07FF) is printed
as the one escape of its code point, but a three-byte sequence (U+0800 to U+FFFF) is printed
as three replacement escapes, because the test of the three-byte lead is
`codepoint >> 4 == 0xc` where the lead bytes have `0xe`. U+20AC, the bytes E2 82 AC, is
printed as three times the escape of FFFD. -/
theorem print_two_and_three_byte_utf8 :
    (∀ (L : Libc) (is_heap : Bool) (c : Nat) (rest : List Nat), 0x80 ≤ c → c ≤ 0x7FF →
      Json_printValue L (.string ⟨is_heap, 2, some (utf8_encode c ++ rest)⟩)
        = [0x22] ++ [0x5c, 0x75] ++ hex4 c ++ [0x22, 10]) ∧
    (∀ (L : Libc) (is_heap : Bool) (c : Nat) (rest : List Nat), 0x800 ≤ c → c ≤ 0xFFFF →
      Json_printValue L (.string ⟨is_heap, 3, some (utf8_encode c ++ rest)⟩)
        = [0x22] ++ [0x5c, 0x75, 0x66, 0x66, 0x66, 0x64] ++ [0x5c, 0x75, 0x66, 0x66, 0x66, 0x64]
            ++ [0x5c, 0x75, 0x66, 0x66, 0x66, 0x64] ++ [0x22, 10]) ∧
    (∀ L : Libc, Json_printValue L (.string ⟨false, 3, some [0xE2, 0x82, 0xAC, 0]⟩)
      = [0x22] ++ [0x5c, 0x75, 0x66, 0x66, 0x66, 0x64] ++ [0x5c, 0x75, 0x66, 0x66, 0x66, 0x64]
          ++ [0x5c, 0x75, 0x66, 0x66, 0x66, 0x64] ++ [0x22, 10]) ∧
    utf8_encode 0x20AC = [0xE2, 0x82, 0xAC] := by
  refine ⟨?_, ?_, fun _ => rfl, by decide⟩
  · intro L is_heap c rest h1 h2
    have he : utf8_encode c = [0xC0 + c / 64, 0x80 + c % 64] := by
      unfold utf8_encode
      rw [if_neg (by omega), if_pos (by omega)]
    rw [Json_printValue_string]
    simp only [he, Option.getD_some, List.cons_append, List.nil_append]
    have g0 : (((0xC0 + c / 64) :: (0x80 + c % 64) :: rest).getD 0 0) = 0xC0 + c / 64 := rfl
    have g1 : (((0xC0 + c / 64) :: (0x80 + c % 64) :: rest).getD (0 + 1) 0)
        = 0x80 + c % 64 := rfl
    rw [printStringLoop_two _ 2 1 0 (by decide) (by rw [g0]; omega) (by rw [g0]; omega),
      g0, g1]
    have hcp : (0xC0 + c / 64) % 32 * 64 + (0x80 + c % 64) % 64 = c := by omega
    rw [hcp, printStringLoop_done _ 2 1 (0 + 2) (by decide), fmt_04x_eq_hex4 _ (by omega)]
    simp
  · intro L is_heap c rest h1 h2
    have he : utf8_encode c = [0xE0 + c / 4096, 0x80 + c / 64 % 64, 0x80 + c % 64] := by
      unfold utf8_encode
      rw [if_neg (by omega), if_neg (by omega), if_pos (by omega)]
    rw [Json_printValue_string]
    simp only [he, Option.getD_some, List.cons_append, List.nil_append]
    have g0 : (((0xE0 + c / 4096) :: (0x80 + c / 64 % 64) :: (0x80 + c % 64) :: rest).getD 0 0)
        = 0xE0 + c / 4096 := rfl
    have g1 : (((0xE0 + c / 4096) :: (0x80 + c / 64 % 64) :: (0x80 + c % 64)
        :: rest).getD (0 + 1) 0) = 0x80 + c / 64 % 64 := rfl
    have g2 : (((0xE0 + c / 4096) :: (0x80 + c / 64 % 64) :: (0x80 + c % 64)
        :: rest).getD (0 + 1 + 1) 0) = 0x80 + c % 64 := rfl
    rw [printStringLoop_fffd _ 3 2 0 (by decide) (by rw [g0]; omega) (by rw [g0]; omega)
        (by rw [g0]; omega) (by rw [g0]; omega) (by rw [g0]; omega),
      printStringLoop_fffd _ 3 1 (0 + 1) (by decide) (by rw [g1]; omega) (by rw [g1]; omega)
        (by rw [g1]; omega) (by rw [g1]; omega) (by rw [g1]; omega),
      printStringLoop_fffd _ 3 0 (0 + 1 + 1) (by decide) (by rw [g2]; omega)
        (by rw [g2]; omega) (by rw [g2]; omega) (by rw [g2]; omega) (by rw [g2]; omega),
      printStringLoop_done _ 3 0 (0 + 1 + 1 + 1) (by decide)]
    simp

/-! ## The parser on a string literal with a surrogate pair -/

theorem skipLeadingSpace_nonspace (buffer : List Nat) (buf_sz n ret : Nat)
    (h : isspace (buffer.getD ret 0) = false) :
    skipLeadingSpace buffer buf_sz (n + 1) ret = some ret := by
  rw [skipLeadingSpace, h]
  rfl

theorem skipSpace_end (buffer : List Nat) (buf_sz ret : Nat) (h : buf_sz ≤ ret) :
    skipSpace buffer buf_sz ret = ret := by
  unfold skipSpace
  have h0 : buf_sz - ret = 0 := by omega
  rw [h0]
  rfl

theorem cstr_eq_self (l : List Nat) (h : ∀ c, c ∈ l → c ≠ 0) : cstr l = l := by
  unfold cstr
  rw [List.takeWhile_eq_self_iff]
  intro c hc
  simpa using h c hc

theorem hexDigit_ne_zero (d : Nat) : hexDigit d ≠ 0 := by
  unfold hexDigit
  split <;> omega

theorem hex4_ne_zero (n c : Nat) (h : c ∈ hex4 n) : c ≠ 0 := by
  unfold hex4 at h
  simp only [List.mem_cons, List.mem_singleton, List.not_mem_nil, or_false] at h
  rcases h with h | h | h | h <;> rw [h] <;> exact hexDigit_ne_zero _

theorem hex4_length (n : Nat) : (hex4 n).length = 4 := rfl

/-- The string loop over a run `p` of plain characters stores them one by one. -/
theorem parseStringLoop_plain_run (L : Libc) (buffer : List Nat) (buf_sz : Nat) (p : List Nat)
    (fuel i : Nat) (data : Option (List Nat)) (hlen : i + p.length ≤ buf_sz)
    (hbuf : ∀ k, k < p.length → buffer.getD (i + k) 0 = p.getD k 0)
    (hp : ∀ c, c ∈ p → c ≤ 0x7f ∧ c ≠ 0x22 ∧ c ≠ 0x5c) :
    parseStringLoop L buffer buf_sz (fuel + p.length) i data
      = parseStringLoop L buffer buf_sz fuel (i + p.length)
          (if p = [] then data else some (data.getD [] ++ p)) := by
  induction p generalizing i data with
  | nil => rfl
  | cons c p ih =>
    have h0 : buffer.getD i 0 = c := by
      have := hbuf 0 (by simp)
      simpa using this
    have hc := hp c (by simp)
    have hstep := parseStringLoop_plain L buffer buf_sz (fuel + p.length) i data
      (by simp at hlen; omega) (by rw [h0]; exact hc.2.1) (by rw [h0]; exact hc.2.2)
      (by rw [h0]; exact hc.1)
    have hl : fuel + (c :: p).length = fuel + p.length + 1 := by simp; omega
    rw [hl, hstep, h0]
    rw [ih (i + 1) (some (data.getD [] ++ [c])) (by simp at hlen; omega)
      (fun k hk => by
        have := hbuf (k + 1) (by simp; omega)
        rw [show i + 1 + k = i + (k + 1) by omega, this]
        simp)
      (fun d hd => hp d (by simp [hd]))]
    have hi : i + 1 + p.length = i + (c :: p).length := by simp; omega
    rw [hi]
    congr 1
    by_cases hpn : p = []
    · subst hpn
      simp
    · rw [if_neg hpn, if_neg (by simp)]
      simp

theorem utf8_bytes_four (cp : Nat) (h1 : 0x10000 ≤ cp) (h2 : cp ≤ 0x10FFFF) :
    [0xf0 ||| ((cp >>> 18) &&& 7), 0x80 ||| ((cp >>> 12) &&& 0x3f),
      0x80 ||| ((cp >>> 6) &&& 0x3f), 0x80 ||| (cp &&& 0x3f)] = utf8_encode cp := by
  simp only [shr_18, shr_12, shr_6, and_7, and_63]
  rw [or_240 _ (Nat.mod_lt _ (by decide)), or_128 _ (Nat.mod_lt _ (by decide)),
    or_128 _ (Nat.mod_lt _ (by decide)), or_128 _ (Nat.mod_lt _ (by decide))]
  unfold utf8_encode
  rw [if_neg (by omega), if_neg (by omega), if_neg (by omega)]
  have e : cp / 262144 % 8 = cp / 262144 := by omega
  rw [e]

theorem surrogate_codepoint (h l : Nat) (hl1 : 0xDC00 ≤ l) (hl2 : l ≤ 0xDFFF) :
    0x10000 + (((h - 0xd800) <<< 10) ||| (l - 0xdc00))
      = 0x10000 + ((h - 0xd800) * 1024 + (l - 0xdc00)) := by
  rw [shl_10_or _ _ (by omega)]

/-- The escape case on a high surrogate followed by the escape of a low surrogate. -/
theorem parseEscapeU_pair (L : Libc) (buffer : List Nat) (i h l : Nat) (tail : List Nat)
    (hh1 : 0xD800 ≤ h) (hh2 : h ≤ 0xDBFF) (hl1 : 0xDC00 ≤ l) (hl2 : l ≤ 0xDFFF)
    (hd : buffer.drop i = 0x75 :: (hex4 h ++ 0x5c :: 0x75 :: (hex4 l ++ tail)))
    (htail : ∀ c, c ∈ tail → c ≠ 0)
    (hL1 : ∀ rest, L.scan_hx4 (hex4 h ++ rest) = some (h, 4))
    (hL2 : ∀ rest, L.scan_hx4 (hex4 l ++ rest) = some (l, 4)) :
    parseEscapeU L buffer i
      = (utf8_encode (0x10000 + (((h - 0xD800) <<< 10) ||| (l - 0xDC00))), i + 10) := by
  have hnz2 : ∀ c, c ∈ 0x5c :: 0x75 :: (hex4 l ++ tail) → c ≠ 0 := by
    intro c hc
    simp only [List.mem_cons, List.mem_append] at hc
    rcases hc with hc | hc | hc | hc
    · omega
    · omega
    · exact hex4_ne_zero l c hc
    · exact htail c hc
  have hnz1 : ∀ c, c ∈ 0x75 :: (hex4 h ++ 0x5c :: 0x75 :: (hex4 l ++ tail)) → c ≠ 0 := by
    intro c hc
    simp only [List.mem_cons, List.mem_append] at hc
    rcases hc with hc | hc | hc
    · omega
    · exact hex4_ne_zero h c hc
    · exact hnz2 c (by simpa using hc)
  have hd2 : buffer.drop (i + 5) = 0x5c :: 0x75 :: (hex4 l ++ tail) := by
    rw [← List.drop_drop, hd]
    rfl
  have hs1 : sscanf_u_hx L (cstr (buffer.drop i)) = some (h, 5) := by
    rw [hd, cstr_eq_self _ hnz1]
    simp only [sscanf_u_hx, hL1]
    have : h % 65536 = h := by omega
    rw [this]
  have hs2 : sscanf_bs_u_hx L (cstr (buffer.drop (i + 5))) = some (l, 6) := by
    rw [hd2, cstr_eq_self _ hnz2]
    simp only [sscanf_bs_u_hx, hL2]
    have : l % 65536 = l := by omega
    rw [this]
  unfold parseEscapeU
  rw [hs1]
  simp only
  rw [if_pos ⟨hh1, hh2⟩, hs2]
  simp only
  rw [if_neg (by omega)]
  have hcp := surrogate_codepoint h l hl1 hl2
  rw [utf8_bytes_four _ (by rw [hcp]; omega) (by rw [hcp]; omega)]
  have hidx : i + 5 + 6 - 1 = i + 10 := by omega
  rw [hidx]

/-- C14: for a high surrogate `h`, a low surrogate `l` and a prefix `p` of printable ASCII
characters other than quote and backslash, with a C library whose `%4hx` converts the four
hexadecimal digits of `h` and of `l`, `Json_parseStr` on the literal made of a quote, `p`,
the escapes of `h` and `l` and a quote yields a heap String of length `|p| + 4` whose bytes
are `p` followed by the four-byte UTF-8 encoding of the code point
`0x10000 + ((h - 0xD800) << 10 | (l - 0xDC00))`, and returns the length of the literal. -/
theorem parse_surrogate_pair (L : Libc) (fuel h l : Nat) (p : List Nat)
    (hh1 : 0xD800 ≤ h) (hh2 : h ≤ 0xDBFF) (hl1 : 0xDC00 ≤ l) (hl2 : l ≤ 0xDFFF)
    (hp : ∀ c, c ∈ p → 0x20 ≤ c ∧ c ≤ 0x7e ∧ c ≠ 0x22 ∧ c ≠ 0x5c)
    (hL1 : ∀ rest, L.scan_hx4 (hex4 h ++ rest) = some (h, 4))
    (hL2 : ∀ rest, L.scan_hx4 (hex4 l ++ rest) = some (l, 4)) :
    Json_parseStr L (fuel + 1) (p.length + 14)
        ([0x22] ++ p ++ [0x5c, 0x75] ++ hex4 h ++ [0x5c, 0x75] ++ hex4 l ++ [0x22]) .null
      = some (p.length + 14,
          .string ⟨true, p.length + 4,
            some (p ++ utf8_encode (0x10000 + (((h - 0xD800) <<< 10) ||| (l - 0xDC00))))⟩) := by
  have hbuf : [0x22] ++ p ++ [0x5c, 0x75] ++ hex4 h ++ [0x5c, 0x75] ++ hex4 l ++ [0x22]
      = (0x22 :: p) ++ 0x5c :: 0x75 :: (hex4 h ++ 0x5c :: 0x75 :: (hex4 l ++ [0x22])) := by
    simp
  rw [hbuf]
  generalize hB : (0x22 :: p) ++ 0x5c :: 0x75 :: (hex4 h ++ 0x5c :: 0x75 :: (hex4 l ++ [0x22]))
    = buffer
  have hpre : (0x22 :: p).length = p.length + 1 := rfl
  -- the bytes of the buffer
  have g0 : buffer.getD 0 0 = 0x22 := by rw [← hB]; rfl
  have gp : ∀ k, k < p.length → buffer.getD (0 + 1 + k) 0 = p.getD k 0 := by
    intro k hk
    rw [← hB, List.getD_append _ _ _ _ (by rw [hpre]; omega),
      show 0 + 1 + k = k + 1 by omega]
    rfl
  have gS : ∀ j, buffer.getD (p.length + 1 + j) 0
      = (0x5c :: 0x75 :: (hex4 h ++ 0x5c :: 0x75 :: (hex4 l ++ [0x22]))).getD j 0 := by
    intro j
    rw [← hB, List.getD_append_right _ _ _ _ (by rw [hpre]; omega), hpre]
    congr 1
    omega
  have gd : buffer.drop (p.length + 1 + 1)
      = 0x75 :: (hex4 h ++ 0x5c :: 0x75 :: (hex4 l ++ [0x22])) := by
    rw [← hB, ← List.drop_drop, ← hpre, List.drop_left]
    rfl
  -- the escape
  have hesc := parseEscapeU_pair L buffer (p.length + 1 + 1) h l [0x22] hh1 hh2 hl1 hl2 gd
    (by intro c hc; simp at hc; omega) hL1 hL2
  -- the loop
  have hloop : parseStringLoop L buffer (p.length + 14) (p.length + 14) (0 + 1) none
      = (p.length + 13,
          some (p ++ utf8_encode (0x10000 + (((h - 0xD800) <<< 10) ||| (l - 0xDC00))))) := by
    have hfuel : p.length + 14 = 13 + 1 + p.length := by omega
    rw [show parseStringLoop L buffer (p.length + 14) (p.length + 14) (0 + 1) none
        = parseStringLoop L buffer (p.length + 14) (13 + 1 + p.length) (0 + 1) none by
      rw [← hfuel]]
    rw [parseStringLoop_plain_run L buffer (p.length + 14) p (13 + 1) (0 + 1) none (by omega) gp
      (fun c hc => ⟨by have := hp c hc; omega, (hp c hc).2.2.1, (hp c hc).2.2.2⟩)]
    have hi : 0 + 1 + p.length = p.length + 1 := by omega
    rw [hi, parseStringLoop_escape_u L buffer (p.length + 14) 13 (p.length + 1) _ (by omega)
      (by have := gS 0; simpa using this) (by have := gS 1; simpa using this), hesc]
    simp only
    have hq : buffer.getD (p.length + 1 + 1 + 10 + 1) 0 = 0x22 := by
      have := gS 12
      rw [show p.length + 1 + 1 + 10 + 1 = p.length + 1 + 12 by omega, this]
      rfl
    rw [parseStringLoop_quote L buffer (p.length + 14) 13 _ _ hq]
    have hidx : p.length + 1 + 1 + 10 + 1 = p.length + 13 := by omega
    rw [hidx]
    congr 2
    by_cases hpn : p = []
    · subst hpn
      rfl
    · rw [if_neg hpn]
      rfl
  rw [Json_parseStr_string L fuel (p.length + 14) buffer .null 0 (by omega)
    (skipLeadingSpace_nonspace buffer _ (p.length + 13) 0 (by rw [g0]; rfl)) g0, hloop]
  simp only
  rw [skipSpace_end buffer _ _ (by omega)]
  have hcp := surrogate_codepoint h l hl1 hl2
  have hlen : (utf8_encode (0x10000 + (((h - 0xD800) <<< 10) ||| (l - 0xDC00)))).length = 4 := by
    rw [hcp]
    unfold utf8_encode
    rw [if_neg (by omega), if_neg (by omega), if_neg (by omega)]
    rfl
  simp [hlen]

/-- The example of C14: the literal of `qwerty`, a blank and the escapes of D83C and DF33
yields eleven bytes that end in F0 9F 8C B3. -/
theorem parse_surrogate_pair_witness :
    Json_parseStr intLibc (0 + 1) ((ascii "qwerty ").length + 14)
        ([0x22] ++ ascii "qwerty " ++ [0x5c, 0x75] ++ hex4 0xD83C ++ [0x5c, 0x75]
          ++ hex4 0xDF33 ++ [0x22]) .null
      = some ((ascii "qwerty ").length + 14,
          .string ⟨true, (ascii "qwerty ").length + 4,
            some (ascii "qwerty "
              ++ utf8_encode (0x10000 + (((0xD83C - 0xD800) <<< 10) ||| (0xDF33 - 0xDC00))))⟩) ∧
    utf8_encode (0x10000 + (((0xD83C - 0xD800) <<< 10) ||| (0xDF33 - 0xDC00)))
      = [0xF0, 0x9F, 0x8C, 0xB3] :=
  ⟨parse_surrogate_pair intLibc 0 0xD83C 0xDF33 (ascii "qwerty ") (by decide) (by decide)
      (by decide) (by decide) (by decide) (fun _ => rfl) (fun _ => rfl),
    by decide⟩

/-! ## The parser on an object with an array of numbers -/

/-- The C library on integers converts a one-digit numeral followed by a comma or a
bracket. -/
theorem intLibc_scan_digit (d c : Nat) (rest : List Nat) (hd : d < 10)
    (hc : c = 0x2c ∨ c = 0x5d) :
    intLibc.scan_lf (cstr (decimal d ++ c :: rest)) = some (.fin d, (decimal d).length) := by
  interval_cases d <;> rcases hc with rfl | rfl <;> rfl

/-! ## Decimal numerals and doubles -/

/-- C21 (the code at the failing input): a stray continuation byte (0x80..0xBF) where a lead
byte is expected is printed as the replacement escape and the loop goes on at the next byte:
the bytes 80 41 print as the replacement escape followed by `A`. A lead byte of two bytes
(0xC0..0xDF) is decoded with the byte that follows it, whatever that byte is, and the loop
goes on two bytes further: the bytes C3 41 print as the one escape of U+00C1, with no
replacement escape, and the `A` is swallowed. A lead byte of four bytes takes the three bytes
that follow it in the same way: F0 41 42 43 print as two escapes. -/
theorem print_malformed_utf8 :
    (∀ (data : List Nat) (len fuel i : Nat), i < len →
      0x80 ≤ data.getD i 0 → data.getD i 0 ≤ 0xBF →
      printStringLoop data len (fuel + 1) i
        = [0x5c, 0x75, 0x66, 0x66, 0x66, 0x64] ++ printStringLoop data len fuel (i + 1)) ∧
    (∀ L : Libc, Json_printValue L (.string ⟨false, 2, some [0x80, 0x41, 0]⟩)
      = [0x22, 0x5c, 0x75, 0x66, 0x66, 0x66, 0x64, 0x41, 0x22, 10]) ∧
    (∀ (data : List Nat) (len fuel i : Nat), i < len →
      0xC0 ≤ data.getD i 0 → data.getD i 0 ≤ 0xDF →
      printStringLoop data len (fuel + 1) i
        = [0x5c, 0x75] ++ hex4 (data.getD i 0 % 32 * 64 + data.getD (i + 1) 0 % 64)
            ++ printStringLoop data len fuel (i + 2)) ∧
    (∀ L : Libc, Json_printValue L (.string ⟨false, 2, some [0xC3, 0x41, 0]⟩)
      = [0x22, 0x5c, 0x75, 0x30, 0x30, 0x63, 0x31, 0x22, 10]) ∧
    (∀ L : Libc, Json_printValue L (.string ⟨false, 4, some [0xF0, 0x41, 0x42, 0x43, 0]⟩)
      = [0x22, 0x5c, 0x75, 0x64, 0x37, 0x63, 0x34, 0x5c, 0x75, 0x64, 0x63, 0x38, 0x33,
          0x22, 10]) := by
  refine ⟨?_, fun _ => rfl, ?_, fun _ => rfl, fun _ => rfl⟩
  · intro data len fuel i hi h1 h2
    exact printStringLoop_fffd data len fuel i hi (by omega) (by omega) (by omega) (by omega)
      (by omega)
  · intro data len fuel i hi h1 h2
    rw [printStringLoop_two data len fuel i hi (by omega) (by omega),
      fmt_04x_eq_hex4 _ (by omega)]

/-! ## Bytes consumed by the parser -/

/-- An unterminated string literal of plain characters: the loop ends with `i = buf_sz` and
`ret = i + 1` is returned. -/
theorem Json_parseStr_unterminated (L : Libc) (fuel : Nat) (p : List Nat)
    (hp : ∀ c, c ∈ p → c ≤ 0x7f ∧ c ≠ 0x22 ∧ c ≠ 0x5c) :
    Json_parseStr L (fuel + 1) (p.length + 1) (0x22 :: p) .null
      = some (p.length + 2, .string ⟨true, p.length, if p = [] then none else some p⟩) := by
  have hloop : parseStringLoop L (0x22 :: p) (p.length + 1) (p.length + 1) (0 + 1) none
      = (p.length + 1, if p = [] then none else some p) := by
    have h := parseStringLoop_plain_run L (0x22 :: p) (p.length + 1) p 1 (0 + 1) none
      (by omega) (fun k _ => by rw [Nat.add_comm (0 + 1) k]; rfl) hp
    rw [Nat.add_comm 1 p.length] at h
    rw [h, parseStringLoop_end L _ _ _ _ _ (by omega)]
    rfl
  rw [Json_parseStr_string L fuel (p.length + 1) (0x22 :: p) .null 0 (by omega)
    (skipLeadingSpace_nonspace (0x22 :: p) (p.length + 1) p.length 0 rfl) rfl, hloop]
  simp only
  rw [skipSpace_end _ _ _ (by omega)]
  have hl : ((if p = [] then none else some p : Option (List Nat)).getD []).length
      = p.length := by
    by_cases h : p = []
    · subst h; rfl
    · rw [if_neg h]; rfl
  rw [hl]

/-- C22 (the code at failing inputs): the value returned by `Json_parseStr` exceeds `buf_sz`.
An unterminated string literal: on a quote followed by plain characters `p`, with `buf_sz`
the length of the buffer, the loop ends with `i = buf_sz` and `ret = i + 1` returns
`buf_sz + 1`; on the four bytes of a quote and `abc` with `buf_sz = 4` the call returns 5. A string that ends in an escape of
U+0041 (7 bytes): the escape leaves `i` at 8 and the call returns 9. An unclosed array of two
bytes, a bracket and `1`: `buffer[ret++]` steps past the end and the call returns 3. An
unclosed object of three bytes, a brace, a quote and `a`: the call returns 5. With
`buf_sz = 3` on the bytes of an array that holds the string `a` and the number 1, the first
element returns 3 of the 2 bytes it was given, the loop goes on at `ret = 5`, the second
recursive call gets the size `3 - 5`, which is `2 ^ 64 - 2` in `size_t`, and the call
returns 7. -/
theorem parse_return_exceeds_buffer :
    (∀ (L : Libc) (fuel : Nat) (p : List Nat), (∀ c, c ∈ p → c ≤ 0x7f ∧ c ≠ 0x22 ∧ c ≠ 0x5c) →
      Json_parseStr L (fuel + 1) (p.length + 1) (0x22 :: p) .null
        = some (p.length + 1 + 1, .string ⟨true, p.length, if p = [] then none else some p⟩)) ∧
    (∀ (L : Libc) (fuel : Nat),
      Json_parseStr L (fuel + 1) 4 [0x22, 0x61, 0x62, 0x63] .null
        = some (5, .string ⟨true, 3, some [0x61, 0x62, 0x63]⟩)) ∧
    (∀ fuel : Nat,
      Json_parseStr intLibc (fuel + 1) 7 [0x22, 0x5c, 0x75, 0x30, 0x30, 0x34, 0x31] .null
        = some (9, .string ⟨true, 1, some [0x41]⟩)) ∧
    (∀ fuel : Nat,
      Json_parseStr intLibc (fuel + 1 + 1) 2 [0x5b, 0x31] .null
        = some (3, .array 1 128 [.number (.fin 1)])) ∧
    (∀ (L : Libc) (fuel : Nat),
      Json_parseStr L (fuel + 1 + 1) 3 [0x7b, 0x22, 0x61] .null
        = some (5, .object 0 0 [] [])) ∧
    (∀ fuel : Nat,
      Json_parseStr intLibc (fuel + 1 + 1 + 1) 3 [0x5b, 0x22, 0x61, 0x22, 0x2c, 0x31, 0x5d] .null
        = some (7, .array 2 128 [.string ⟨true, 1, some [0x61]⟩, .number (.fin 1)])) ∧
    (∀ fuel : Nat,
      Json_parseStr intLibc (fuel + 1) (size_sub 3 1) [0x22, 0x61, 0x22, 0x2c, 0x31, 0x5d] .null
        = some (3, .string ⟨true, 1, some [0x61]⟩)) ∧
    size_sub 3 (1 + 3 + 1) = 2 ^ 64 - 2 :=
  ⟨fun L fuel p hp => Json_parseStr_unterminated L fuel p hp, fun _ _ => rfl, fun _ => rfl, fun _ => rfl, fun _ _ => rfl, fun _ => rfl, fun _ => rfl,
    by decide⟩

/-! ## The printer emits clean string tokens -/

theorem isxdigit_hexDigit (d : Nat) (h : d < 16) : isxdigit (hexDigit d) = true := by
  interval_cases d <;> rfl

/-- The escape of a number below 65536 is a clean token. -/
theorem cleanToken_u (n : Nat) (h : n < 65536) :
    cleanToken ([0x5c, 0x75] ++ fmt_04x n) = true := by
  rw [fmt_04x_eq_hex4 n h]
  show (decide ((0x5c : Nat) = 0x5c ∧ (0x75 : Nat) = 0x75) && isxdigit (hexDigit (n / 4096 % 16))
    && isxdigit (hexDigit (n / 256 % 16)) && isxdigit (hexDigit (n / 16 % 16))
    && isxdigit (hexDigit (n % 16))) = true
  rw [isxdigit_hexDigit _ (Nat.mod_lt _ (by decide)),
    isxdigit_hexDigit _ (Nat.mod_lt _ (by decide)),
    isxdigit_hexDigit _ (Nat.mod_lt _ (by decide)),
    isxdigit_hexDigit _ (Nat.mod_lt _ (by decide))]
  rfl

/-- What the printer emits for a byte up to 0x7f is a clean token. -/
theorem cleanToken_ascii (c : Nat) (h : c ≤ 0x7f) :
    cleanToken
      (if c = 0x22 then [0x5c, 0x22]
       else if c = 0x5c then [0x5c, 0x5c]
       else if c = 0x2f then [0x5c, 0x2f]
       else if c = 8 then [0x5c, 0x62]
       else if c = 12 then [0x5c, 0x66]
       else if c = 10 then [0x5c, 0x6e]
       else if c = 13 then [0x5c, 0x72]
       else if c = 9 then [0x5c, 0x74]
       else if ¬ isprint c then [0x5c, 0x75] ++ fmt_04x c
       else [c]) = true := by
  interval_cases c <;> rfl

theorem tokens_cons (t rest : List Nat) (ht : cleanToken t = true)
    (h : ∃ toks : List (List Nat), (∀ u, u ∈ toks → cleanToken u = true) ∧ rest = toks.flatten) :
    ∃ toks : List (List Nat), (∀ u, u ∈ toks → cleanToken u = true) ∧
      t ++ rest = toks.flatten := by
  obtain ⟨toks, h1, h2⟩ := h
  refine ⟨t :: toks, ?_, ?_⟩
  · intro u hu
    rcases List.mem_cons.mp hu with rfl | hu
    · exact ht
    · exact h1 u hu
  · rw [h2, List.flatten_cons]

theorem printStringLoop_tokens (data : List Nat) (len : Nat) :
    ∀ fuel i, ∃ toks : List (List Nat), (∀ u, u ∈ toks → cleanToken u = true) ∧
      printStringLoop data len fuel i = toks.flatten := by
  intro fuel
  induction fuel with
  | zero =>
    intro i
    exact ⟨[], fun u hu => absurd hu (List.not_mem_nil u), rfl⟩
  | succ fuel ih =>
    intro i
    by_cases hi : i < len
    · rw [printStringLoop, if_pos hi]
      simp only [and_255, and_63, and_31, and_15, and_7, and_1023, shr_5, shr_4, shr_3, shr_10]
      have hc : data.getD i 0 % 256 < 256 := Nat.mod_lt _ (by decide)
      generalize data.getD i 0 % 256 = c at hc ⊢
      have h1 : data.getD (i + 1) 0 % 64 < 64 := Nat.mod_lt _ (by decide)
      have h2 : data.getD (i + 2) 0 % 64 < 64 := Nat.mod_lt _ (by decide)
      have h3 : data.getD (i + 3) 0 % 64 < 64 := Nat.mod_lt _ (by decide)
      generalize data.getD (i + 1) 0 % 64 = b1 at h1 ⊢
      generalize data.getD (i + 2) 0 % 64 = b2 at h2 ⊢
      generalize data.getD (i + 3) 0 % 64 = b3 at h3 ⊢
      have hfffd : cleanToken [0x5c, 0x75, 0x66, 0x66, 0x66, 0x64] = true := rfl
      by_cases c7 : c ≤ 127
      · rw [if_pos c7]
        exact tokens_cons _ _ (cleanToken_ascii c c7) (ih (i + 1))
      · rw [if_neg c7]
        by_cases c5 : c / 32 = 6
        · rw [if_pos c5, shl_6_or _ _ h1]
          exact tokens_cons _ _ (cleanToken_u _ (by omega)) (ih (i + 2))
        · rw [if_neg c5]
          by_cases c4 : c / 16 = 12
          · rw [if_pos c4, shl_6_or _ _ h1, shl_6_or _ _ h2]
            exact tokens_cons _ _ (cleanToken_u _ (by omega)) (ih (i + 3))
          · rw [if_neg c4]
            by_cases c3 : c / 8 = 30
            · rw [if_pos c3]
              split
              · exact tokens_cons _ _ hfffd (ih (i + 4))
              · rw [List.append_assoc, List.append_assoc]
                refine tokens_cons _ _ (cleanToken_u _ (Nat.mod_lt _ (by decide))) ?_
                rw [← List.append_assoc]
                exact tokens_cons _ _ (cleanToken_u _ (Nat.mod_lt _ (by decide))) (ih (i + 4))
            · rw [if_neg c3]
              exact tokens_cons _ _ hfffd (ih (i + 1))
    · rw [printStringLoop_done data len _ i hi]
      exact ⟨[], fun u hu => absurd hu (List.not_mem_nil u), rfl⟩

/-- The loop of the printer does not depend on the fuel once the fuel covers the bytes that
are left. -/
theorem printStringLoop_fuel (data : List Nat) (len : Nat) :
    ∀ f1 f2 i, len ≤ i + f1 → len ≤ i + f2 →
      printStringLoop data len f1 i = printStringLoop data len f2 i := by
  intro f1
  induction f1 with
  | zero =>
    intro f2 i h1 _
    rw [printStringLoop_done data len 0 i (by omega), printStringLoop_done data len f2 i (by omega)]
  | succ f1 ih =>
    intro f2 i h1 h2
    cases f2 with
    | zero =>
      rw [printStringLoop_done data len _ i (by omega), printStringLoop_done data len 0 i (by omega)]
    | succ f2 =>
      rw [printStringLoop, printStringLoop, ih f2 (i + 1) (by omega) (by omega),
        ih f2 (i + 2) (by omega) (by omega), ih f2 (i + 3) (by omega) (by omega),
        ih f2 (i + 4) (by omega) (by omega)]

/-- Every byte of a clean token is a printable ASCII character. -/
theorem cleanToken_bytes (t : List Nat) (ht : cleanToken t = true) :
    ∀ b, b ∈ t → 0x20 ≤ b ∧ b ≤ 0x7e := by
  have hx : ∀ h, isxdigit h = true → 0x20 ≤ h ∧ h ≤ 0x7e := by
    intro h hh
    unfold isxdigit at hh
    rw [decide_eq_true_eq] at hh
    omega
  match t, ht with
  | [c], ht =>
    intro b hb
    simp only [cleanToken, decide_eq_true_eq] at ht
    simp only [List.mem_singleton] at hb
    omega
  | [a, e], ht =>
    intro b hb
    simp only [cleanToken, decide_eq_true_eq] at ht
    simp only [List.mem_cons, List.mem_singleton, List.not_mem_nil, or_false] at hb
    omega
  | [a, u, h1, h2, h3, h4], ht =>
    intro b hb
    simp only [cleanToken, Bool.and_eq_true, decide_eq_true_eq] at ht
    obtain ⟨⟨⟨⟨⟨ha, hu⟩, g1⟩, g2⟩, g3⟩, g4⟩ := ht
    have := hx h1 g1
    have := hx h2 g2
    have := hx h3 g3
    have := hx h4 g4
    simp only [List.mem_cons, List.mem_singleton, List.not_mem_nil, or_false] at hb
    omega

/-- C23: for every String, whatever its bytes, the text that the printer emits is a quote, a
concatenation of clean tokens (one printable ASCII character other than the quote, the
backslash and the slash; a two-character escape; or the escape with `u` and exactly four
hexadecimal digits) and a closing quote; every byte between the quotes is a printable ASCII
character, so no control byte and no byte from 0x80 on is emitted. `Json_printValue` adds
the newline. The fuel `len` of the loop suffices: more fuel gives the same text. -/
theorem printString_clean_tokens (s : Json_String) :
    (∃ toks : List (List Nat), (∀ t, t ∈ toks → cleanToken t = true) ∧
      printString s = [0x22] ++ toks.flatten ++ [0x22] ∧
      (∀ b, b ∈ toks.flatten → 0x20 ≤ b ∧ b ≤ 0x7e)) ∧
    (∀ L : Libc, Json_printValue L (.string s) = printString s ++ [10]) ∧
    (∀ fuel, s.len ≤ fuel →
      printStringLoop (s.data.getD []) s.len fuel 0
        = printStringLoop (s.data.getD []) s.len s.len 0) := by
  refine ⟨?_, ?_, ?_⟩
  · obtain ⟨toks, h1, h2⟩ := printStringLoop_tokens (s.data.getD []) s.len s.len 0
    refine ⟨toks, h1, ?_, ?_⟩
    · unfold printString
      rw [h2]
    · intro b hb
      obtain ⟨t, ht, hbt⟩ := List.mem_flatten.mp hb
      exact cleanToken_bytes t (h1 t ht) b hbt
  · intro L
    rw [Json_printValue_string]
    unfold printString
    simp only [List.append_assoc, List.cons_append, List.nil_append]
  · intro fuel hf
    exact printStringLoop_fuel (s.data.getD []) s.len fuel s.len 0 (by omega) (by omega)

end JsonParser
